import Mathlib

/-!
# Block list panel (`librecad/src/ui/qg_blockwidget.cpp`)

A shallow embedding of the table model `QG_BlockModel` and of the event handlers of
`QG_BlockWidget`.  Block objects live in a heap indexed by address, a pointer is an
optional address (`none` is `nullptr`), and a function that can go wrong returns
`Option`: `none` stands for undefined behaviour of the C++ code (a null dereference, an
out-of-bounds `QList::at`) or for an exhausted signal budget.

The slot `slotSelectionChanged` is connected to the `selectionChanged` signal of the
selection model and itself calls `select`, which may raise that signal again.  The
handlers therefore take a budget for the depth of nested signal deliveries; the theorems
show that a depth of one (two for a direct call of the slot) is always enough.

Rows and columns are `int` in the source.  They are unbounded integers here: a row is
only ever compared with the size of the list, which stays far below `2^31`.

Painting, scroll bars, the buttons and the context menu carry no state the statements
below depend on and are left out.
-/

/-! ## Strings, pointers and domain objects -/

/-- A `QString`, as the list of its UTF-16 code units. -/
abbrev QString := List Nat

/-- The `operator<` of `QString`: case sensitive comparison of the code units, the
shorter string first when one is a prefix of the other. -/
def qstringLess : QString → QString → Bool
  | [], [] => false
  | [], _ :: _ => true
  | _ :: _, [] => false
  | a :: as, b :: bs => if a < b then true else if b < a then false else qstringLess as bs

/-- Modelled from the spec: the class `RS_Block` (rs_block.h is not part of the sources).
Only the attributes read or written by the block widget are kept: `getName()`,
`isUndone()`, `isFrozen()`, `isVisibleInBlockList()` / `visibleInBlockList(bool)` and
`isSelectedInBlockList()` / `selectedInBlockList(bool)`. -/
structure RS_Block where
  name : QString
  undone : Bool
  frozen : Bool
  visibleInBlockList : Bool
  selectedInBlockList : Bool
deriving DecidableEq, Repr

/-- A `RS_Block*`: `none` is `nullptr`, `some a` points to the block at address `a`. -/
abbrev RS_BlockPtr := Option Nat

/-- The block objects, by address. -/
abbrev Heap := Nat → RS_Block

/-- Dereferencing a block pointer; undefined on `nullptr`. -/
def deref (heap : Heap) (p : RS_BlockPtr) : Option RS_Block := p.map heap

/-- The member call `block->selectedInBlockList(v)` on the block at address `a`. -/
def setSelectedInBlockList (heap : Heap) (a : Nat) (v : Bool) : Heap :=
  fun x => if x = a then { heap a with selectedInBlockList := v } else heap x

/-- The member call `block->visibleInBlockList(v)` on the block at address `a`. -/
def setVisibleInBlockList (heap : Heap) (a : Nat) (v : Bool) : Heap :=
  fun x => if x = a then { heap a with visibleInBlockList := v } else heap x

/-- Modelled from the spec: the class `RS_BlockList` (rs_blocklist.h is not part of the
sources): the list of block pointers behind `count()` / `at(i)` / iteration, and the
active block behind `getActive()` / `activate(block)`. -/
structure RS_BlockList where
  blocks : List RS_BlockPtr
  activeBlock : RS_BlockPtr
deriving DecidableEq, Repr

/-- Modelled from the spec: `RS_BlockList::count()`. -/
def RS_BlockList.count (bl : RS_BlockList) : Int := bl.blocks.length

/-- Modelled from the spec: `RS_BlockList::getActive()`. -/
def RS_BlockList.getActive (bl : RS_BlockList) : RS_BlockPtr := bl.activeBlock

/-- Modelled from the spec: `RS_BlockList::activate(RS_Block*)`, which makes the given
block the active one. -/
def RS_BlockList.activate (bl : RS_BlockList) (block : RS_BlockPtr) : RS_BlockList :=
  { bl with activeBlock := block }

/-! ## The toolkit types used by the model -/

/-- The call `QList::at(i)`; out of bounds is undefined. -/
def qlistAt {α : Type} (l : List α) (i : Int) : Option α :=
  if i < 0 then none else l[i.toNat]?

/-- The call `QList::indexOf(x)`: the first position of `x`, or `-1`. -/
def qlistIndexOf {α : Type} [DecidableEq α] : List α → α → Int
  | [], _ => -1
  | y :: ys, x =>
    if y = x then 0
    else
      let r := qlistIndexOf ys x
      if r < 0 then -1 else r + 1

/-- A `QModelIndex`: row, column and whether it carries a model pointer. -/
structure QModelIndex where
  row : Int
  column : Int
  hasModel : Bool
deriving DecidableEq, Repr

/-- The default constructed `QModelIndex()`. -/
def QModelIndex.invalid : QModelIndex := ⟨-1, -1, false⟩

/-- The test `QModelIndex::isValid()`. -/
def QModelIndex.isValid (i : QModelIndex) : Bool :=
  decide (0 ≤ i.row) && decide (0 ≤ i.column) && i.hasModel

/-- The call `QAbstractItemModel::createIndex(row, column)`. -/
def createIndex (row column : Int) : QModelIndex := ⟨row, column, true⟩

/-- A `QIcon`, by the resource path it was loaded from. -/
structure QIcon where
  path : String
deriving DecidableEq, Repr

/-- A `QFont`, by its bold attribute. -/
structure QFont where
  bold : Bool
deriving DecidableEq, Repr

/-- The `QVariant` values `data` can return; `null` is the empty `QVariant()`. -/
inductive QVariant where
  | null
  | icon (i : QIcon)
  | string (s : QString)
  | font (f : QFont)
deriving DecidableEq, Repr

/-- The role `Qt::DisplayRole`. -/
def DisplayRole : Int := 0
/-- The role `Qt::DecorationRole`. -/
def DecorationRole : Int := 1
/-- The role `Qt::FontRole`. -/
def FontRole : Int := 6

/-- Modelled from the spec: column `QG_BlockModel::VISIBLE` of the enum in
qg_blockwidget.h (not part of the sources). -/
def VISIBLE : Int := 0
/-- Modelled from the spec: column `QG_BlockModel::NAME` of the enum in
qg_blockwidget.h (not part of the sources). -/
def NAME : Int := 1

/-! ## `QG_BlockModel` -/

/-- The members of `QG_BlockModel`. -/
structure QG_BlockModel where
  listBlock : List RS_BlockPtr
  activeBlock : RS_BlockPtr
  blockVisible : QIcon
  blockHidden : QIcon
deriving DecidableEq, Repr

/-- The constructor `QG_BlockModel::QG_BlockModel`. -/
def QG_BlockModel.new : QG_BlockModel :=
  { listBlock := [], activeBlock := none,
    blockVisible := ⟨":/icons/visible.svg"⟩, blockHidden := ⟨":/icons/invisible.svg"⟩ }

/-- The method `QG_BlockModel::rowCount`. -/
def QG_BlockModel.rowCount (m : QG_BlockModel) : Int := m.listBlock.length

/-- The method `QG_BlockModel::index`. -/
def QG_BlockModel.index (m : QG_BlockModel) (row column : Int) : QModelIndex :=
  if row ≥ m.listBlock.length ∨ row < 0 then QModelIndex.invalid
  else createIndex row column

/-- The comparison `blockLessThan`, on the two blocks pointed to. -/
def blockLessThan (s1 s2 : RS_Block) : Bool := qstringLess s1.name s2.name

/-- One step of the sort: `x` goes in front of the first element it is less than. -/
def sortInsert {α : Type} (lt : α → α → Bool) (x : α) : List α → List α
  | [] => [x]
  | y :: ys => if lt x y then x :: y :: ys else y :: sortInsert lt x ys

/-- The call `std::sort(begin, end, lt)`, as an insertion sort that only consults `lt`. -/
def stdSort {α : Type} (lt : α → α → Bool) : List α → List α
  | [] => []
  | x :: xs => sortInsert lt x (stdSort lt xs)

/-- Modelled from the spec: `QG_BlockModel::setActiveBlock`, the inline setter of
qg_blockwidget.h (not part of the sources). -/
def QG_BlockModel.setActiveBlock (m : QG_BlockModel) (b : RS_BlockPtr) : QG_BlockModel :=
  { m with activeBlock := b }

/-- The body of the loop of `setBlockList`: `bl->at(i)` is appended unless it is undone. -/
def setBlockListStep (heap : Heap) (bl : RS_BlockList) (acc : List RS_BlockPtr) (i : Nat) :
    Option (List RS_BlockPtr) := do
  let p ← qlistAt bl.blocks i
  let b ← deref heap p
  if !b.undone then pure (acc ++ [p]) else pure acc

/-- The blocks kept by the loop of `setBlockList`: `!bl->at(i)->isUndone()`, on a
non-null entry. -/
def notUndone (heap : Heap) (p : RS_BlockPtr) : Bool :=
  match p with
  | some a => !(heap a).undone
  | none => false

/-- The comparison handed to `std::sort`, on two entries of `listBlock` (never null
there, every entry having been dereferenced by the loop before). -/
def ptrLessThan (heap : Heap) (p q : RS_BlockPtr) : Bool :=
  match p, q with
  | some a, some b => blockLessThan (heap a) (heap b)
  | _, _ => false

/-- The method `QG_BlockModel::setBlockList`. -/
def QG_BlockModel.setBlockList (m : QG_BlockModel) (heap : Heap) (bl : Option RS_BlockList) :
    Option QG_BlockModel :=
  let m := { m with listBlock := [] }
  match bl with
  | none => some m
  | some bl => do
    let l ← (List.range bl.count.toNat).foldlM (setBlockListStep heap bl) m.listBlock
    let m := { m with listBlock := l }
    let m := m.setActiveBlock bl.getActive
    pure { m with listBlock := stdSort (ptrLessThan heap) m.listBlock }

/-- The method `QG_BlockModel::getBlock`. -/
def QG_BlockModel.getBlock (m : QG_BlockModel) (row : Int) : Option RS_BlockPtr :=
  if row ≥ m.listBlock.length ∨ row < 0 then some none
  else qlistAt m.listBlock row

/-- The method `QG_BlockModel::getIndex`. -/
def QG_BlockModel.getIndex (m : QG_BlockModel) (blk : RS_BlockPtr) : QModelIndex :=
  let row := qlistIndexOf m.listBlock blk
  if row < 0 then QModelIndex.invalid
  else createIndex row NAME

/-- The method `QG_BlockModel::data`. -/
def QG_BlockModel.data (m : QG_BlockModel) (heap : Heap) (index : QModelIndex) (role : Int) :
    Option QVariant :=
  if !index.isValid || decide (index.row ≥ m.listBlock.length) then some QVariant.null
  else do
    let blk ← qlistAt m.listBlock index.row
    if role = DecorationRole ∧ index.column = VISIBLE then do
      let b ← deref heap blk
      if !b.frozen then pure (QVariant.icon m.blockVisible)
      else pure (QVariant.icon m.blockHidden)
    else if role = DisplayRole ∧ index.column = NAME then do
      let b ← deref heap blk
      pure (QVariant.string b.name)
    else if role = FontRole ∧ index.column = NAME then
      if m.activeBlock ≠ none ∧ m.activeBlock = blk then pure (QVariant.font ⟨true⟩)
      else pure QVariant.null
    else pure QVariant.null

/-! ## The view: selection model and hidden rows

The selection model of the toolkit is kept at the level of single indexes: a
`QItemSelection` is the list of the indexes it covers.  The table view keeps its
default selection behaviour (`SelectItems`), so no command carries `Rows` or `Columns`. -/

/-- The `QItemSelectionModel::SelectionFlags` bits (`NoUpdate` has none set). -/
structure SelectionFlags where
  clear : Bool
  select : Bool
  deselect : Bool
  toggle : Bool
  current : Bool
deriving DecidableEq, Repr

/-- The command `QItemSelectionModel::Select`. -/
def SelectionFlags.Select : SelectionFlags := ⟨false, true, false, false, false⟩
/-- The command `QItemSelectionModel::Deselect`. -/
def SelectionFlags.Deselect : SelectionFlags := ⟨false, false, true, false, false⟩
/-- The command `QItemSelectionModel::ClearAndSelect`. -/
def SelectionFlags.ClearAndSelect : SelectionFlags := ⟨true, true, false, false, false⟩
/-- The command `QItemSelectionModel::NoUpdate`. -/
def SelectionFlags.NoUpdate : SelectionFlags := ⟨false, false, false, false, false⟩

/-- The test `command == NoUpdate`. -/
def SelectionFlags.isNoUpdate (c : SelectionFlags) : Bool :=
  !(c.clear || c.select || c.deselect || c.toggle || c.current)

/-- The constructor `QItemSelection(index, index)`: empty when the index is invalid. -/
def itemSelection (index : QModelIndex) : List QModelIndex :=
  if index.isValid then [index] else []

/-- The method `QItemSelection::merge(other, command)`. -/
def selectionMerge (this other : List QModelIndex) (command : SelectionFlags) :
    List QModelIndex :=
  if other.isEmpty || !(command.select || command.deselect || command.toggle) then this
  else
    let newSelection := other.filter QModelIndex.isValid
    let kept := this.filter (fun i => !decide (i ∈ newSelection))
    let newSelection :=
      if command.toggle then newSelection.filter (fun i => !decide (i ∈ this))
      else newSelection
    if !command.deselect then kept ++ newSelection else kept

/-- The state of the `QItemSelectionModel` of the view. -/
structure QItemSelectionModel where
  ranges : List QModelIndex
  currentSelection : List QModelIndex
  currentCommand : SelectionFlags
  currentIndex : QModelIndex
deriving DecidableEq, Repr

/-- The selected indexes (`QItemSelectionModel::selection()`): the committed ranges
merged with the current selection, without the invalid ones. -/
def QItemSelectionModel.selection (s : QItemSelectionModel) : List QModelIndex :=
  (selectionMerge s.ranges s.currentSelection s.currentCommand).filter QModelIndex.isValid

/-- The test `QItemSelectionModel::isSelected(index)`. -/
def QItemSelectionModel.isSelected (s : QItemSelectionModel) (i : QModelIndex) : Bool :=
  decide (i ∈ s.selection)

/-- The state update of `QItemSelectionModel::select(selection, command)`, before the
change is signalled. -/
def QItemSelectionModel.applySelect (s : QItemSelectionModel) (sel : List QModelIndex)
    (command : SelectionFlags) : QItemSelectionModel :=
  let s := { s with ranges := s.ranges.filter QModelIndex.isValid }
  let s := if command.clear then { s with ranges := [], currentSelection := [] } else s
  let s :=
    if !command.current then
      { s with ranges := selectionMerge s.ranges s.currentSelection s.currentCommand,
               currentSelection := [] }
    else s
  if command.toggle || command.select || command.deselect then
    { s with currentCommand := command, currentSelection := sel }
  else s

/-- The table view: its selection model and the rows hidden in the vertical header. -/
structure QTableView where
  selectionModel : QItemSelectionModel
  rowHidden : Int → Bool

/-- The members of `QG_BlockWidget`, with the heap of the blocks they point to. -/
structure QG_BlockWidget where
  heap : Heap
  blockList : Option RS_BlockList
  lastBlock : RS_BlockPtr
  blockModel : QG_BlockModel
  blockView : QTableView
  matchBlockName : QString

/-- The calls `QTableView::showRow(row)` (`hide = false`) and `hideRow(row)`
(`hide = true`); the header ignores a row outside the model. -/
def QG_BlockWidget.setRowHidden (w : QG_BlockWidget) (row : Int) (hide : Bool) :
    QG_BlockWidget :=
  if row < 0 ∨ row ≥ w.blockModel.rowCount then w
  else
    { w with blockView :=
        { w.blockView with rowHidden := fun r => if r = row then hide else w.blockView.rowHidden r } }

/-- The method `QItemSelectionModel::select(selection, command)`: the selection is
updated, and when it changed, `selectionChanged(selected, deselected)` is emitted to the
connected slot `emit`, which runs before `select` returns. -/
def QG_BlockWidget.select
    (emit : QG_BlockWidget → List QModelIndex → List QModelIndex → Option QG_BlockWidget)
    (w : QG_BlockWidget) (sel : List QModelIndex) (command : SelectionFlags) :
    Option QG_BlockWidget :=
  if command.isNoUpdate then some w
  else
    let s := w.blockView.selectionModel
    let old := selectionMerge (s.ranges.filter QModelIndex.isValid) s.currentSelection
      s.currentCommand
    let s := s.applySelect sel command
    let new := s.selection
    let w := { w with blockView := { w.blockView with selectionModel := s } }
    let selected := new.filter (fun i => !decide (i ∈ old))
    let deselected := old.filter (fun i => !decide (i ∈ new))
    if selected.isEmpty && deselected.isEmpty then some w
    else emit w selected deselected

/-- The body of the first loop of `slotSelectionChanged`, for one index of `selected`. -/
def selectedStep
    (emit : QG_BlockWidget → List QModelIndex → List QModelIndex → Option QG_BlockWidget)
    (w : QG_BlockWidget) (index : QModelIndex) : Option QG_BlockWidget := do
  let block ← w.blockModel.getBlock index.row
  match block with
  | some a =>
    let w := { w with heap := setSelectedInBlockList w.heap a true }
    w.select emit (itemSelection index) SelectionFlags.Select
  | none => pure w

/-- The body of the second loop of `slotSelectionChanged`, for one index of
`deselected`. -/
def deselectedStep
    (emit : QG_BlockWidget → List QModelIndex → List QModelIndex → Option QG_BlockWidget)
    (w : QG_BlockWidget) (index : QModelIndex) : Option QG_BlockWidget := do
  let block ← w.blockModel.getBlock index.row
  match block with
  | some a =>
    if (w.heap a).visibleInBlockList then
      let w := { w with heap := setSelectedInBlockList w.heap a false }
      w.select emit (itemSelection index) SelectionFlags.Deselect
    else pure w
  | none => pure w

/-- The two loops of `slotSelectionChanged`, with `emit` the slot reached by the signals
raised inside them. -/
def slotSelectionChangedBody
    (emit : QG_BlockWidget → List QModelIndex → List QModelIndex → Option QG_BlockWidget)
    (w : QG_BlockWidget) (selected deselected : List QModelIndex) : Option QG_BlockWidget := do
  let w ← selected.foldlM (selectedStep emit) w
  deselected.foldlM (deselectedStep emit) w

/-- The slot `QG_BlockWidget::slotSelectionChanged`, connected to `selectionChanged` of
the selection model of the view.  The first argument bounds the depth of the signals
raised from within the slot. -/
def QG_BlockWidget.slotSelectionChanged :
    Nat → QG_BlockWidget → List QModelIndex → List QModelIndex → Option QG_BlockWidget
  | 0 => fun _ _ _ => none
  | fuel + 1 => slotSelectionChangedBody (QG_BlockWidget.slotSelectionChanged fuel)

/-- The call `blockView->setCurrentIndex(idx)`: the selection model makes `idx` the
current index and selects it with `command`, the value of
`blockView->selectionCommand(idx, nullptr)` (`ClearAndSelect` in the extended
selection mode unless a keyboard modifier is held). -/
def QG_BlockWidget.setCurrentIndex (fuel : Nat) (w : QG_BlockWidget) (idx : QModelIndex)
    (command : SelectionFlags) : Option QG_BlockWidget :=
  let w := { w with blockView := { w.blockView with
    selectionModel := { w.blockView.selectionModel with currentIndex := idx } } }
  w.select (QG_BlockWidget.slotSelectionChanged fuel) (itemSelection idx) command

/-- The method `QG_BlockWidget::activateBlock`; `command` is the selection command the
view computes for `setCurrentIndex`. -/
def QG_BlockWidget.activateBlock (fuel : Nat) (w : QG_BlockWidget) (block : RS_BlockPtr)
    (command : SelectionFlags) : Option QG_BlockWidget :=
  match block, w.blockList with
  | none, _ => some w
  | _, none => some w
  | some a, some bl => do
    let w := { w with lastBlock := bl.getActive }
    let w := { w with blockList := some (bl.activate block) }
    let idx := w.blockModel.getIndex block
    -- remember selected status of the block
    let selected := (w.heap a).selectedInBlockList
    let w ← w.setCurrentIndex fuel idx command
    let w := { w with blockModel := w.blockModel.setActiveBlock block }
    -- restore selected status of the block
    let selFlag := if selected then SelectionFlags.Select else SelectionFlags.Deselect
    let w := { w with heap := setSelectedInBlockList w.heap a selected }
    w.select (QG_BlockWidget.slotSelectionChanged fuel) (itemSelection idx) selFlag

/-- The body of the loop of `restoreSelections`, for one entry of the block list. -/
def restoreSelectionsStep (fuel : Nat) (w : QG_BlockWidget) (block : RS_BlockPtr) :
    Option QG_BlockWidget :=
  match block with
  | none => pure w
  | some a =>
    if !(w.heap a).visibleInBlockList then pure w
    else if !(w.heap a).selectedInBlockList then pure w
    else
      let idx := w.blockModel.getIndex block
      w.select (QG_BlockWidget.slotSelectionChanged fuel) (itemSelection idx)
        SelectionFlags.Select

/-- The method `QG_BlockWidget::restoreSelections`; it dereferences `blockList`. -/
def QG_BlockWidget.restoreSelections (fuel : Nat) (w : QG_BlockWidget) :
    Option QG_BlockWidget := do
  let bl ← w.blockList
  bl.blocks.foldlM (restoreSelectionsStep fuel) w

/-- The body of the loop of `slotUpdateBlockList`, for row `i`; `indexOfRx text name` is
`name.indexOf(rx)` for `rx` the wildcard translation of `text`. -/
def slotUpdateBlockListStep (indexOfRx : QString → QString → Int) (w : QG_BlockWidget)
    (i : Nat) : Option QG_BlockWidget := do
  let block ← w.blockModel.getBlock i
  match block with
  | none => pure w
  | some a =>
    if indexOfRx w.matchBlockName (w.heap a).name = 0 then do
      let w := w.setRowHidden i false
      let b ← w.blockModel.getBlock i
      let t ← b
      pure { w with heap := setVisibleInBlockList w.heap t true }
    else do
      let w := w.setRowHidden i true
      let b ← w.blockModel.getBlock i
      let t ← b
      pure { w with heap := setVisibleInBlockList w.heap t false }

/-- The slot `QG_BlockWidget::slotUpdateBlockList`. -/
def QG_BlockWidget.slotUpdateBlockList (indexOfRx : QString → QString → Int) (fuel : Nat)
    (w : QG_BlockWidget) : Option QG_BlockWidget :=
  match w.blockList with
  | none => some w
  | some bl => do
    let w ← (List.range bl.count.toNat).foldlM (slotUpdateBlockListStep indexOfRx) w
    w.restoreSelections fuel

/-! ## Auxiliary definitions for the proofs -/

/-- The entry of row `row` of the model, `nullptr` outside the rows: the value of
`getBlock(row)`. -/
def QG_BlockModel.blockAt (m : QG_BlockModel) (row : Int) : RS_BlockPtr :=
  if row < 0 ∨ row ≥ m.rowCount then none else m.listBlock.getD row.toNat none

/-- The widget with another heap and another state of the selection model. -/
def QG_BlockWidget.withSel (w : QG_BlockWidget) (h : Heap) (s : QItemSelectionModel) :
    QG_BlockWidget :=
  { w with heap := h, blockView := { w.blockView with selectionModel := s } }

/-- The heap after the first loop of `slotSelectionChanged` handled `index`. -/
def selHeap (m : QG_BlockModel) (h : Heap) (index : QModelIndex) : Heap :=
  match m.blockAt index.row with
  | some a => setSelectedInBlockList h a true
  | none => h

/-- The heap after the second loop of `slotSelectionChanged` handled `index`. -/
def deselHeap (m : QG_BlockModel) (h : Heap) (index : QModelIndex) : Heap :=
  match m.blockAt index.row with
  | some a => if (h a).visibleInBlockList then setSelectedInBlockList h a false else h
  | none => h

/-- The heap after both loops of `slotSelectionChanged`. -/
def heapAfter (m : QG_BlockModel) (h : Heap) (selected deselected : List QModelIndex) : Heap :=
  deselected.foldl (deselHeap m) (selected.foldl (selHeap m) h)

/-- The widget after one turn of the loop of `slotUpdateBlockList` on row `row` holding
the block at `a`: the row is shown and the block made visible when `v`, hidden and made
invisible otherwise. -/
def QG_BlockWidget.showOrHide (w : QG_BlockWidget) (row : Int) (a : Nat) (v : Bool) :
    QG_BlockWidget :=
  { w with
    heap := setVisibleInBlockList w.heap a v,
    blockView :=
      { w.blockView with rowHidden := fun r => if r = row then !v else w.blockView.rowHidden r } }

/-! ## A small panel, used to instantiate the theorems -/

/-- Three blocks: "B" at address 1 (frozen), "A" at address 2 (selected) and "C" at
address 3 (undone). -/
def exampleHeap : Heap := fun a =>
  if a = 1 then ⟨[66], false, true, true, false⟩
  else if a = 2 then ⟨[65], false, false, true, true⟩
  else if a = 3 then ⟨[67], true, false, true, false⟩
  else ⟨[], false, false, false, false⟩

/-- The block list of the three blocks, block 1 active. -/
def exampleBlockList : RS_BlockList := ⟨[some 1, some 2, some 3], some 1⟩

/-- The model `setBlockList` builds from `exampleBlockList`. -/
def exampleModel : QG_BlockModel :=
  ⟨[some 2, some 1], some 1, ⟨":/icons/visible.svg"⟩, ⟨":/icons/invisible.svg"⟩⟩

/-- A view with nothing selected and no hidden row. -/
def exampleView : QTableView :=
  ⟨⟨[], [], SelectionFlags.NoUpdate, QModelIndex.invalid⟩, fun _ => false⟩

/-- The panel over the three blocks, with the filter text "A". -/
def exampleWidget : QG_BlockWidget :=
  ⟨exampleHeap, some exampleBlockList, none, exampleModel, exampleView, [65]⟩

/-- The match position of a filter text without wildcard characters: such a pattern is
anchored and matches the equal name only. -/
def exampleIndexOfRx (text name : QString) : Int := if text = name then 0 else -1

/-! ## Lists and the sort -/

theorem qstringLess_asymm : ∀ s t : QString, qstringLess s t = true → qstringLess t s = false
  | [], [], h => by simp [qstringLess] at h
  | [], _ :: _, _ => by simp [qstringLess]
  | _ :: _, [], h => by simp [qstringLess] at h
  | a :: as, b :: bs, h => by
    simp only [qstringLess] at h ⊢
    by_cases hab : a < b
    · have hba : ¬ b < a := by omega
      simp [hba, hab]
    · by_cases hba : b < a
      · simp [hab, hba] at h
      · simp only [hab, hba, if_false] at h ⊢
        exact qstringLess_asymm as bs h

theorem ptrLessThan_asymm (heap : Heap) (p q : RS_BlockPtr) (h : ptrLessThan heap p q = true) :
    ptrLessThan heap q p = false := by
  cases p <;> cases q <;> simp_all [ptrLessThan, blockLessThan]
  exact qstringLess_asymm _ _ h

theorem sortInsert_perm {α : Type} (lt : α → α → Bool) (x : α) (l : List α) :
    (sortInsert lt x l).Perm (x :: l) := by
  induction l with
  | nil => simp [sortInsert]
  | cons y ys ih =>
    simp only [sortInsert]
    split
    · exact List.Perm.refl _
    · exact (List.Perm.cons y ih).trans (List.Perm.swap x y ys)

theorem stdSort_perm {α : Type} (lt : α → α → Bool) (l : List α) : (stdSort lt l).Perm l := by
  induction l with
  | nil => simp [stdSort]
  | cons x xs ih =>
    simp only [stdSort]
    exact (sortInsert_perm lt x _).trans (List.Perm.cons x ih)

theorem sortInsert_head {α : Type} (lt : α → α → Bool) (x : α) (l : List α) :
    ∀ y ∈ (sortInsert lt x l).head?, y = x ∨ y ∈ l.head? := by
  cases l with
  | nil => simp [sortInsert]
  | cons z zs =>
    simp only [sortInsert]
    split <;> simp

theorem sortInsert_chain {α : Type} (lt : α → α → Bool)
    (hasymm : ∀ a b, lt a b = true → lt b a = false) (x : α) (l : List α)
    (hl : List.Chain' (fun a b => lt b a = false) l) :
    List.Chain' (fun a b => lt b a = false) (sortInsert lt x l) := by
  induction l with
  | nil => simp [sortInsert]
  | cons y ys ih =>
    simp only [sortInsert]
    by_cases hxy : lt x y = true
    · simp only [hxy, if_true]
      exact List.Chain'.cons' hl (by simpa using hasymm x y hxy)
    · simp only [hxy]
      refine List.Chain'.cons' (ih hl.tail) ?_
      intro z hz
      rcases sortInsert_head lt x ys z hz with rfl | hz
      · simpa using hxy
      · exact hl.rel_head? hz

theorem stdSort_chain {α : Type} (lt : α → α → Bool)
    (hasymm : ∀ a b, lt a b = true → lt b a = false) (l : List α) :
    List.Chain' (fun a b => lt b a = false) (stdSort lt l) := by
  induction l with
  | nil => simp [stdSort]
  | cons x xs ih => exact sortInsert_chain lt hasymm x _ ih

theorem qlistAt_natCast {α : Type} (l : List α) (i : Nat) : qlistAt l (i : Int) = l[i]? := by
  simp [qlistAt]

/-- The loop of `setBlockList` run over the first `n` rows keeps the blocks of those rows
that are not undone, in order. -/
theorem setBlockList_loop (heap : Heap) (bl : RS_BlockList)
    (hnn : ∀ p ∈ bl.blocks, p ≠ none) (n : Nat) (hn : n ≤ bl.blocks.length) :
    (List.range n).foldlM (setBlockListStep heap bl) [] =
      some ((bl.blocks.take n).filter
        (notUndone heap)) := by
  induction n with
  | zero => simp
  | succ n ih =>
    have hlt : n < bl.blocks.length := by omega
    rw [List.range_succ, List.foldlM_append, ih (by omega)]
    have hmem : bl.blocks[n] ∈ bl.blocks := List.getElem_mem _
    have hne := hnn _ hmem
    obtain ⟨a, ha⟩ := Option.ne_none_iff_exists'.mp hne
    simp only [Option.bind_eq_bind, Option.some_bind, List.foldlM_cons, List.foldlM_nil,
      setBlockListStep, qlistAt_natCast, List.getElem?_eq_getElem hlt, ha, deref,
      Option.map_some', Option.pure_def, Option.bind_some]
    rw [List.take_succ, List.getElem?_eq_getElem hlt, ha]
    simp only [Option.toList_some, List.filter_append, List.filter_cons, List.filter_nil]
    by_cases hu : (heap a).undone = true
    · simp [hu, notUndone]
    · simp [hu, notUndone]

theorem setBlockList_loop_some (heap : Heap) (bl : RS_BlockList) (n : Nat)
    (hn : n ≤ bl.blocks.length) (l : List RS_BlockPtr)
    (hl : (List.range n).foldlM (setBlockListStep heap bl) [] = some l) :
    ∀ p ∈ bl.blocks.take n, p ≠ none := by
  induction n generalizing l with
  | zero => simp
  | succ n ih =>
    have hlt : n < bl.blocks.length := by omega
    rw [List.range_succ, List.foldlM_append] at hl
    cases hr : (List.range n).foldlM (setBlockListStep heap bl) [] with
    | none => rw [hr] at hl; simp at hl
    | some l1 =>
      rw [hr] at hl
      simp only [Option.bind_eq_bind, Option.some_bind, List.foldlM_cons, List.foldlM_nil,
        setBlockListStep, qlistAt_natCast, List.getElem?_eq_getElem hlt] at hl
      intro p hp
      rw [List.take_succ, List.getElem?_eq_getElem hlt] at hp
      rcases List.mem_append.mp hp with h | h
      · exact ih (by omega) l1 hr p h
      · simp only [Option.toList_some, List.mem_singleton] at h
        rw [h]
        intro hnone
        rw [hnone] at hl
        simp [deref] at hl

/-- The model `setBlockList` leaves for a block list without null entries. -/
theorem setBlockList_eq (m : QG_BlockModel) (heap : Heap) (bl : RS_BlockList)
    (hnn : ∀ p ∈ bl.blocks, p ≠ none) :
    m.setBlockList heap (some bl) =
      some ⟨stdSort (ptrLessThan heap) (bl.blocks.filter (notUndone heap)), bl.activeBlock,
        m.blockVisible, m.blockHidden⟩ := by
  have hloop := setBlockList_loop heap bl hnn bl.blocks.length (Nat.le_refl _)
  rw [List.take_length] at hloop
  simp [QG_BlockModel.setBlockList, RS_BlockList.count, hloop, QG_BlockModel.setActiveBlock,
    RS_BlockList.getActive]

/-- A model populated by `setBlockList` from a block list has no null row and at most as
many rows as the list has blocks. -/
theorem setBlockList_populated (m m2 : QG_BlockModel) (heap : Heap) (bl : RS_BlockList)
    (h : m.setBlockList heap (some bl) = some m2) :
    (∀ p ∈ m2.listBlock, p ≠ none) ∧ m2.listBlock.length ≤ bl.blocks.length := by
  have hnn : ∀ p ∈ bl.blocks, p ≠ none := by
    cases hr : (List.range bl.blocks.length).foldlM (setBlockListStep heap bl) [] with
    | none =>
      simp [QG_BlockModel.setBlockList, RS_BlockList.count, hr] at h
    | some l =>
      have := setBlockList_loop_some heap bl bl.blocks.length (Nat.le_refl _) l hr
      rwa [List.take_length] at this
  rw [setBlockList_eq m heap bl hnn] at h
  have hm2 := Option.some.inj h
  have hperm := stdSort_perm (ptrLessThan heap) (bl.blocks.filter (notUndone heap))
  rw [← hm2]
  constructor
  · intro p hp
    exact hnn p (List.mem_filter.mp (hperm.mem_iff.mp hp)).1
  · show (stdSort (ptrLessThan heap) (bl.blocks.filter (notUndone heap))).length ≤ _
    rw [hperm.length_eq]
    exact List.length_filter_le _ _


/-! ## The table model -/

/-- C1: for a non-null block list without null entries, `setBlockList` returns, the rows
are a permutation of the blocks of the list that are not undone (so each of them occurs
as often as in the list and no undone block occurs), `rowCount()` is their number, no row
is null, and no row has a name less than the name of the row before it. -/
theorem setBlockList_rows_sorted_filter (m : QG_BlockModel) (heap : Heap) (bl : RS_BlockList)
    (hnn : ∀ p ∈ bl.blocks, p ≠ none) :
    ∃ m2, m.setBlockList heap (some bl) = some m2 ∧
      m2.listBlock.Perm (bl.blocks.filter (notUndone heap)) ∧
      (∀ p, notUndone heap p = true →
        (m2.listBlock.filter (fun q => decide (q = p))).length =
          (bl.blocks.filter (fun q => decide (q = p))).length) ∧
      (∀ a, (heap a).undone = true → some a ∉ m2.listBlock) ∧
      m2.rowCount = ((bl.blocks.filter (notUndone heap)).length : Int) ∧
      (∀ i, i + 1 < m2.listBlock.length →
        ∃ a b, m2.listBlock[i]? = some (some a) ∧ m2.listBlock[i + 1]? = some (some b) ∧
          qstringLess (heap b).name (heap a).name = false) := by
  have hperm := stdSort_perm (ptrLessThan heap) (bl.blocks.filter (notUndone heap))
  refine ⟨_, setBlockList_eq m heap bl hnn, hperm, ?_, ?_, ?_, ?_⟩
  · intro p hp
    show ((stdSort (ptrLessThan heap) (bl.blocks.filter (notUndone heap))).filter _).length = _
    rw [(hperm.filter _).length_eq, List.filter_filter]
    congr 1
    apply List.filter_congr
    intro q _
    by_cases hq : q = p
    · simp [hq, hp]
    · simp [hq]
  · intro a ha hmem
    have := (hperm.mem_iff).mp hmem
    simp [List.mem_filter, ha, notUndone] at this
  · simp [QG_BlockModel.rowCount, hperm.length_eq]
  · intro i hi
    have hchain := stdSort_chain (ptrLessThan heap) (ptrLessThan_asymm heap) (bl.blocks.filter (notUndone heap))
    have hrel := (List.chain'_iff_get.mp hchain) i (by simp only at hi; omega)
    have hsome : ∀ j (hj : j < (stdSort (ptrLessThan heap) (bl.blocks.filter (notUndone heap))).length),
        ∃ a, (stdSort (ptrLessThan heap) (bl.blocks.filter (notUndone heap)))[j] = some a := by
      intro j hj
      have hmem := (hperm.mem_iff).mp (List.getElem_mem hj)
      have hmem2 := (List.mem_filter.mp hmem).1
      exact Option.ne_none_iff_exists'.mp (hnn _ hmem2)
    obtain ⟨a, ha⟩ := hsome i (by simp only at hi; omega)
    obtain ⟨b, hb⟩ := hsome (i + 1) hi
    refine ⟨a, b, ?_, ?_, ?_⟩
    · simp only; rw [List.getElem?_eq_getElem (by simp only at hi; omega), ha]
    · simp only; rw [List.getElem?_eq_getElem hi, hb]
    · simp only [List.get_eq_getElem] at hrel
      rw [ha, hb] at hrel
      simpa [ptrLessThan, blockLessThan] using hrel

theorem getBlock_eq (m : QG_BlockModel) (row : Int) :
    m.getBlock row =
      if row < 0 ∨ row ≥ m.rowCount then some none else some (m.listBlock.getD row.toNat none) := by
  unfold QG_BlockModel.getBlock QG_BlockModel.rowCount
  by_cases h : row ≥ (m.listBlock.length : Int) ∨ row < 0
  · have h2 : row < 0 ∨ row ≥ (m.listBlock.length : Int) := h.symm
    simp only [h, h2, if_true]
  · have h2 : ¬ (row < 0 ∨ row ≥ (m.listBlock.length : Int)) := fun x => h x.symm
    simp only [h, h2, if_false]
    have h3 : ¬ row < 0 := fun x => h (Or.inr x)
    have h4 : row.toNat < m.listBlock.length := by omega
    simp [qlistAt, h3, List.getElem?_eq_getElem h4, List.getD_eq_getElem _ _ h4]

/-- C6 (amended): `getBlock(row)` never reads the list out of bounds; without null
entries in the model it returns `nullptr` exactly when `row < 0` or `row >= rowCount()`,
and otherwise the entry at position `row`; `index(row, column)` is invalid exactly when
`row < 0`, `row >= rowCount()` or `column < 0`. -/
theorem getBlock_index_in_range (m : QG_BlockModel) (row column : Int)
    (hnn : ∀ p ∈ m.listBlock, p ≠ none) :
    m.getBlock row ≠ none ∧
    (m.getBlock row = some none ↔ (row < 0 ∨ row ≥ m.rowCount)) ∧
    (¬ (row < 0 ∨ row ≥ m.rowCount) →
      ∃ h : row.toNat < m.listBlock.length, m.getBlock row = some (m.listBlock[row.toNat])) ∧
    ((m.index row column).isValid = false ↔ (row < 0 ∨ row ≥ m.rowCount ∨ column < 0)) := by
  refine ⟨?_, ?_, ?_, ?_⟩
  · rw [getBlock_eq]; split <;> simp
  · rw [getBlock_eq]
    by_cases h : row < 0 ∨ row ≥ m.rowCount
    · simp [h]
    · simp only [h, if_false, iff_false]
      have h4 : row.toNat < m.listBlock.length := by
        simp only [QG_BlockModel.rowCount] at h; omega
      rw [List.getD_eq_getElem _ _ h4]
      intro hc
      exact hnn _ (List.getElem_mem h4) (Option.some.inj hc)
  · intro h
    have h4 : row.toNat < m.listBlock.length := by
      simp only [QG_BlockModel.rowCount] at h; omega
    refine ⟨h4, ?_⟩
    rw [getBlock_eq, if_neg h, List.getD_eq_getElem _ _ h4]
  · unfold QG_BlockModel.index QG_BlockModel.rowCount
    by_cases h : row ≥ (m.listBlock.length : Int) ∨ row < 0
    · simp only [h, if_true]
      have : row < 0 ∨ row ≥ (m.listBlock.length : Int) ∨ column < 0 := by omega
      simp [QModelIndex.invalid, QModelIndex.isValid, this]
    · simp only [h, if_false, createIndex, QModelIndex.isValid]
      have h1 : 0 ≤ row := by omega
      have h2 : ¬ row ≥ (m.listBlock.length : Int) := by omega
      have h3 : ¬ row < 0 := by omega
      simp [h1, h2, h3]

/-- C6, counterexample: in the example model, which has two rows, `index(0, -1)` has a
row in range and is nevertheless an invalid index. -/
theorem index_negative_column_invalid :
    (exampleModel.index 0 (-1)).isValid = false ∧
      ¬ ((0 : Int) < 0 ∨ (0 : Int) ≥ exampleModel.rowCount) := by
  decide

/-- C7: `setBlockList(nullptr)` returns with an empty model: `rowCount()` is 0,
`getBlock` is `nullptr` on every row, `getIndex` is invalid for every block, and the
active block of the model is the one it had before. -/
theorem setBlockList_null_empties (m : QG_BlockModel) (heap : Heap) :
    ∃ m2, m.setBlockList heap none = some m2 ∧
      m2.rowCount = 0 ∧
      (∀ row, m2.getBlock row = some none) ∧
      (∀ blk, (m2.getIndex blk).isValid = false) ∧
      m2.activeBlock = m.activeBlock := by
  refine ⟨{ m with listBlock := [] }, rfl, rfl, ?_, ?_, rfl⟩
  · intro row
    rw [getBlock_eq]
    have : row < 0 ∨ row ≥ 0 := by omega
    simp [QG_BlockModel.rowCount, this]
  · intro blk
    simp [QG_BlockModel.getIndex, qlistIndexOf, QModelIndex.invalid, QModelIndex.isValid]

/-- C8: `data(index, role)` is the empty variant on an invalid index or a row at or
beyond `rowCount()`; otherwise the row lookup is in bounds and, for `blk` the entry of the
row, the decoration of column VISIBLE is the visible icon when the block `blk` points to
is not frozen and the hidden icon when it is, the display value of column NAME is the
name of that block, the font of column NAME is bold exactly when the active block of the
model is non-null and is `blk` (the empty variant otherwise), and every other combination
of role and column gives the empty variant. -/
theorem data_table (m : QG_BlockModel) (heap : Heap) (index : QModelIndex) (role : Int) :
    ((index.isValid = false ∨ index.row ≥ m.rowCount) →
      m.data heap index role = some QVariant.null) ∧
    ((index.isValid = true ∧ index.row < m.rowCount) →
      ∃ blk, qlistAt m.listBlock index.row = some blk ∧
        (role = DecorationRole ∧ index.column = VISIBLE → ∀ a, blk = some a →
          m.data heap index role = some (QVariant.icon
            (if (heap a).frozen = false then m.blockVisible else m.blockHidden))) ∧
        (role = DisplayRole ∧ index.column = NAME → ∀ a, blk = some a →
          m.data heap index role = some (QVariant.string (heap a).name)) ∧
        (role = FontRole ∧ index.column = NAME →
          m.data heap index role =
            some (if m.activeBlock ≠ none ∧ m.activeBlock = blk then QVariant.font ⟨true⟩
              else QVariant.null)) ∧
        (¬ (role = DecorationRole ∧ index.column = VISIBLE) →
          ¬ (role = DisplayRole ∧ index.column = NAME) →
          ¬ (role = FontRole ∧ index.column = NAME) →
          m.data heap index role = some QVariant.null)) := by
  constructor
  · intro h
    unfold QG_BlockModel.data QG_BlockModel.rowCount at *
    rcases h with h | h
    · simp [h]
    · simp [h]
  · rintro ⟨hv, hr⟩
    have h0 : 0 ≤ index.row := by
      simp only [QModelIndex.isValid, Bool.and_eq_true, decide_eq_true_eq] at hv
      exact hv.1.1
    have h4 : index.row.toNat < m.listBlock.length := by
      simp only [QG_BlockModel.rowCount] at hr; omega
    have hat : qlistAt m.listBlock index.row = some (m.listBlock[index.row.toNat]) := by
      simp [qlistAt, show ¬ index.row < 0 by omega, List.getElem?_eq_getElem h4]
    have hguard : (!index.isValid || decide (index.row ≥ (m.listBlock.length : Int))) = false := by
      simp only [QG_BlockModel.rowCount] at hr
      simp [hv, hr]
    refine ⟨_, hat, ?_, ?_, ?_, ?_⟩
    · intro h a ha
      simp only [QG_BlockModel.data, hguard, hat, h, deref, ha]
      by_cases hf : (heap a).frozen = true <;> simp [hf]
    · rintro ⟨rfl, hc⟩ a ha
      have e1 : ¬ DisplayRole = DecorationRole := by decide
      simp [QG_BlockModel.data, hguard, hat, hc, e1, deref, ha]
    · rintro ⟨rfl, hc⟩
      have e1 : ¬ FontRole = DecorationRole := by decide
      have e2 : ¬ FontRole = DisplayRole := by decide
      simp only [QG_BlockModel.data, hguard, hat, Bool.false_eq_true, if_false,
        Option.bind_eq_bind, Option.some_bind, e1, e2, hc, false_and, and_self, if_true,
        Option.pure_def]
      split <;> rfl
    · intro h1 h2 h3
      simp [QG_BlockModel.data, hguard, hat, h1, h2, h3]

/-! ## The selection model -/

theorem mem_itemSelection (i x : QModelIndex) :
    x ∈ itemSelection i ↔ (i.isValid = true ∧ x = i) := by
  unfold itemSelection
  by_cases h : i.isValid = true <;> simp [h]

theorem selectionMerge_filter_valid (this other : List QModelIndex) (c : SelectionFlags) :
    selectionMerge (this.filter QModelIndex.isValid) other c =
      (selectionMerge this other c).filter QModelIndex.isValid := by
  unfold selectionMerge
  by_cases h : (other.isEmpty || !(c.select || c.deselect || c.toggle)) = true
  · simp only [h, if_true]
  · simp only [h]
    have hk : List.filter (fun i => !decide (i ∈ List.filter QModelIndex.isValid other))
          (List.filter QModelIndex.isValid this) =
        List.filter QModelIndex.isValid
          (List.filter (fun i => !decide (i ∈ List.filter QModelIndex.isValid other)) this) := by
      rw [List.filter_filter, List.filter_filter]
      apply List.filter_congr
      intro x _
      exact Bool.and_comm _ _
    have hn : List.filter (fun i => !decide (i ∈ List.filter QModelIndex.isValid this))
          (List.filter QModelIndex.isValid other) =
        List.filter QModelIndex.isValid
          (List.filter (fun i => !decide (i ∈ this)) (List.filter QModelIndex.isValid other)) := by
      rw [List.filter_filter, List.filter_filter, List.filter_filter]
      apply List.filter_congr
      intro x _
      by_cases hx : x.isValid = true <;> simp [hx, List.mem_filter]
    by_cases ht : c.toggle = true <;> by_cases hd : c.deselect = true <;>
      simp only [ht, hd, if_true, if_false, Bool.not_true, Bool.not_false, Bool.false_eq_true,
        List.filter_append, hk, hn, List.filter_filter, Bool.and_self]

theorem selection_valid (s : QItemSelectionModel) (x : QModelIndex) (h : x ∈ s.selection) :
    x.isValid = true := by
  unfold QItemSelectionModel.selection at h
  exact (List.mem_filter.mp h).2

theorem applySelect_currentIndex (s : QItemSelectionModel) (sel : List QModelIndex)
    (c : SelectionFlags) : (s.applySelect sel c).currentIndex = s.currentIndex := by
  unfold QItemSelectionModel.applySelect
  by_cases h1 : c.clear = true <;> by_cases h2 : c.current = true <;>
    by_cases h3 : (c.toggle || c.select || c.deselect) = true <;> simp [h1, h2, h3]

theorem applySelect_Select_selection (s : QItemSelectionModel) (sel : List QModelIndex) :
    (s.applySelect sel SelectionFlags.Select).selection =
      (selectionMerge s.selection sel SelectionFlags.Select).filter QModelIndex.isValid := by
  simp [QItemSelectionModel.applySelect, SelectionFlags.Select, QItemSelectionModel.selection,
    selectionMerge_filter_valid]

theorem applySelect_Deselect_selection (s : QItemSelectionModel) (sel : List QModelIndex) :
    (s.applySelect sel SelectionFlags.Deselect).selection =
      (selectionMerge s.selection sel SelectionFlags.Deselect).filter QModelIndex.isValid := by
  simp [QItemSelectionModel.applySelect, SelectionFlags.Deselect, QItemSelectionModel.selection,
    selectionMerge_filter_valid]

theorem mem_applySelect_Select (s : QItemSelectionModel) (i x : QModelIndex) :
    x ∈ (s.applySelect (itemSelection i) SelectionFlags.Select).selection ↔
      (x ∈ s.selection ∨ (i.isValid = true ∧ x = i)) := by
  rw [applySelect_Select_selection]
  unfold selectionMerge itemSelection
  by_cases h : i.isValid = true
  · simp only [h, if_true, SelectionFlags.Select, List.isEmpty_cons, Bool.or_false, Bool.or_true,
      Bool.not_true, Bool.false_eq_true, if_false, Bool.not_false, List.mem_filter,
      List.mem_append, true_and]
    constructor
    · rintro ⟨h1 | h1, h2⟩
      · exact Or.inl h1.1
      · simp [h] at h1
        exact Or.inr h1.1
    · rintro (h1 | h1)
      · refine ⟨?_, selection_valid s x h1⟩
        by_cases hx : x = i
        · right; simp [hx, h]
        · left; simp [h1, hx, h]
      · subst h1
        exact ⟨Or.inr (by simp [h]), h⟩
  · simp only [h, SelectionFlags.Select, List.isEmpty_nil, Bool.true_or, if_true, false_and,
      or_false, List.mem_filter, Bool.false_eq_true, if_false]
    exact ⟨fun h1 => h1.1, fun h1 => ⟨h1, selection_valid s x h1⟩⟩

theorem mem_applySelect_Deselect (s : QItemSelectionModel) (i x : QModelIndex) :
    x ∈ (s.applySelect (itemSelection i) SelectionFlags.Deselect).selection ↔
      (x ∈ s.selection ∧ ¬ (i.isValid = true ∧ x = i)) := by
  rw [applySelect_Deselect_selection]
  unfold selectionMerge itemSelection
  by_cases h : i.isValid = true
  · simp only [h, if_true, SelectionFlags.Deselect, List.isEmpty_cons, Bool.or_false, Bool.or_true,
      Bool.not_true, Bool.false_eq_true, if_false, Bool.not_false, List.mem_filter, true_and,
      Bool.true_or]
    constructor
    · rintro ⟨h1, -⟩
      refine ⟨h1.1, ?_⟩
      have := h1.2
      simp [h] at this
      rcases this with h3 | h3
      · exact h3
      · rw [selection_valid s x h1.1] at h3
        exact absurd h3 (by decide)
    · rintro ⟨h1, h2⟩
      refine ⟨⟨h1, ?_⟩, selection_valid s x h1⟩
      simp [h, h2]
  · simp only [h, SelectionFlags.Deselect, List.isEmpty_nil, Bool.true_or, if_true, false_and,
      not_false_eq_true, and_true, List.mem_filter, Bool.false_eq_true, if_false]
    exact ⟨fun h1 => h1.1, fun h1 => ⟨h1, selection_valid s x h1⟩⟩

/-! ## The selection-changed slot -/

theorem getBlock_blockAt (m : QG_BlockModel) (row : Int) :
    m.getBlock row = some (m.blockAt row) := by
  rw [getBlock_eq]
  unfold QG_BlockModel.blockAt
  split <;> rfl

theorem withSel_withSel (w : QG_BlockWidget) (h h2 : Heap) (s s2 : QItemSelectionModel) :
    (w.withSel h s).withSel h2 s2 = w.withSel h2 s2 := rfl

theorem withSel_self (w : QG_BlockWidget) : w.withSel w.heap w.blockView.selectionModel = w := rfl

theorem foldl_fixed {α β : Type} (f : β → α → β) (b : β) (l : List α)
    (h : ∀ x ∈ l, f b x = b) : l.foldl f b = b := by
  induction l with
  | nil => rfl
  | cons x xs ih =>
    rw [List.foldl_cons, h x (List.mem_cons_self _ _)]
    exact ih (fun y hy => h y (List.mem_cons_of_mem _ hy))

theorem setSelected_visible (h : Heap) (a : Nat) (v : Bool) (x : Nat) :
    (setSelectedInBlockList h a v x).visibleInBlockList = (h x).visibleInBlockList := by
  unfold setSelectedInBlockList
  by_cases hx : x = a <;> simp [hx]

theorem selHeap_visible (m : QG_BlockModel) (h : Heap) (i : QModelIndex) (x : Nat) :
    (selHeap m h i x).visibleInBlockList = (h x).visibleInBlockList := by
  unfold selHeap
  cases m.blockAt i.row with
  | none => rfl
  | some a => exact setSelected_visible _ _ _ _

theorem deselHeap_visible (m : QG_BlockModel) (h : Heap) (i : QModelIndex) (x : Nat) :
    (deselHeap m h i x).visibleInBlockList = (h x).visibleInBlockList := by
  unfold deselHeap
  cases m.blockAt i.row with
  | none => rfl
  | some a =>
    by_cases hv : (h a).visibleInBlockList = true
    · simp only [hv, if_true]
      exact setSelected_visible _ _ _ _
    · simp only [hv]
      rfl

theorem foldl_selHeap_visible (m : QG_BlockModel) (l : List QModelIndex) (h : Heap) (x : Nat) :
    (l.foldl (selHeap m) h x).visibleInBlockList = (h x).visibleInBlockList := by
  induction l generalizing h with
  | nil => rfl
  | cons i is ih => rw [List.foldl_cons, ih, selHeap_visible]

/-- A `select` that leaves the set of selected indexes as it was raises no signal. -/
theorem select_quiet
    (emit : QG_BlockWidget → List QModelIndex → List QModelIndex → Option QG_BlockWidget)
    (w : QG_BlockWidget) (sel : List QModelIndex) (c : SelectionFlags)
    (hc : c.isNoUpdate = false)
    (hsame : ∀ x, x ∈ (w.blockView.selectionModel.applySelect sel c).selection ↔
      x ∈ w.blockView.selectionModel.selection) :
    w.select emit sel c = some (w.withSel w.heap (w.blockView.selectionModel.applySelect sel c)) := by
  unfold QG_BlockWidget.select
  simp only [hc, Bool.false_eq_true, if_false, selectionMerge_filter_valid]
  have h1 : List.filter (fun i => !decide (i ∈
        List.filter QModelIndex.isValid (selectionMerge w.blockView.selectionModel.ranges
          w.blockView.selectionModel.currentSelection w.blockView.selectionModel.currentCommand)))
      (w.blockView.selectionModel.applySelect sel c).selection = [] := by
    rw [List.filter_eq_nil_iff]
    intro x hx
    have := (hsame x).mp hx
    unfold QItemSelectionModel.selection at this
    simp [this]
  have h2 : List.filter (fun i => !decide (i ∈
        (w.blockView.selectionModel.applySelect sel c).selection))
      (List.filter QModelIndex.isValid (selectionMerge w.blockView.selectionModel.ranges
          w.blockView.selectionModel.currentSelection w.blockView.selectionModel.currentCommand))
        = [] := by
    rw [List.filter_eq_nil_iff]
    intro x hx
    have := (hsame x).mpr hx
    simp [this]
  rw [h1, h2]
  rfl

theorem selectedStep_quiet
    (emit : QG_BlockWidget → List QModelIndex → List QModelIndex → Option QG_BlockWidget)
    (w : QG_BlockWidget) (i : QModelIndex)
    (hpre : ∀ a, w.blockModel.blockAt i.row = some a → i.isValid = true →
      i ∈ w.blockView.selectionModel.selection) :
    ∃ s2, selectedStep emit w i = some (w.withSel (selHeap w.blockModel w.heap i) s2) ∧
      s2.currentIndex = w.blockView.selectionModel.currentIndex ∧
      ∀ x, x ∈ s2.selection ↔ x ∈ w.blockView.selectionModel.selection := by
  unfold selectedStep selHeap
  rw [getBlock_blockAt]
  cases hb : w.blockModel.blockAt i.row with
  | none => exact ⟨w.blockView.selectionModel, rfl, rfl, fun _ => Iff.rfl⟩
  | some a =>
    have hsame : ∀ x, x ∈ (w.blockView.selectionModel.applySelect (itemSelection i)
        SelectionFlags.Select).selection ↔ x ∈ w.blockView.selectionModel.selection := by
      intro x
      rw [mem_applySelect_Select]
      constructor
      · rintro (h | ⟨h1, rfl⟩)
        · exact h
        · exact hpre a hb h1
      · exact Or.inl
    refine ⟨_, ?_, applySelect_currentIndex _ _ _, hsame⟩
    simp only [Option.bind_eq_bind, Option.some_bind]
    exact select_quiet emit _ _ _ rfl hsame

theorem deselectedStep_quiet
    (emit : QG_BlockWidget → List QModelIndex → List QModelIndex → Option QG_BlockWidget)
    (w : QG_BlockWidget) (i : QModelIndex)
    (hpre : ∀ a, w.blockModel.blockAt i.row = some a → (w.heap a).visibleInBlockList = true →
      i.isValid = true → i ∉ w.blockView.selectionModel.selection) :
    ∃ s2, deselectedStep emit w i = some (w.withSel (deselHeap w.blockModel w.heap i) s2) ∧
      s2.currentIndex = w.blockView.selectionModel.currentIndex ∧
      ∀ x, x ∈ s2.selection ↔ x ∈ w.blockView.selectionModel.selection := by
  unfold deselectedStep deselHeap
  rw [getBlock_blockAt]
  cases hb : w.blockModel.blockAt i.row with
  | none => exact ⟨w.blockView.selectionModel, rfl, rfl, fun _ => Iff.rfl⟩
  | some a =>
    by_cases hv : (w.heap a).visibleInBlockList = true
    · have hsame : ∀ x, x ∈ (w.blockView.selectionModel.applySelect (itemSelection i)
          SelectionFlags.Deselect).selection ↔ x ∈ w.blockView.selectionModel.selection := by
        intro x
        rw [mem_applySelect_Deselect]
        constructor
        · exact fun h => h.1
        · intro h
          refine ⟨h, ?_⟩
          rintro ⟨h1, rfl⟩
          exact hpre a hb hv h1 h
      refine ⟨_, ?_, applySelect_currentIndex _ _ _, hsame⟩
      simp only [Option.bind_eq_bind, Option.some_bind, hv, if_true]
      exact select_quiet emit _ _ _ rfl hsame
    · refine ⟨w.blockView.selectionModel, ?_, rfl, fun _ => Iff.rfl⟩
      simp [hv]
      rfl

theorem foldl_deselHeap_visible (m : QG_BlockModel) (l : List QModelIndex) (h : Heap) (x : Nat) :
    (l.foldl (deselHeap m) h x).visibleInBlockList = (h x).visibleInBlockList := by
  induction l generalizing h with
  | nil => rfl
  | cons i is ih => rw [List.foldl_cons, ih, deselHeap_visible]

theorem selectedLoop_quiet
    (emit : QG_BlockWidget → List QModelIndex → List QModelIndex → Option QG_BlockWidget)
    (S : List QModelIndex) (w : QG_BlockWidget)
    (hpre : ∀ i ∈ S, ∀ a, w.blockModel.blockAt i.row = some a → i.isValid = true →
      i ∈ w.blockView.selectionModel.selection) :
    ∃ s2, S.foldlM (selectedStep emit) w =
        some (w.withSel (S.foldl (selHeap w.blockModel) w.heap) s2) ∧
      s2.currentIndex = w.blockView.selectionModel.currentIndex ∧
      ∀ x, x ∈ s2.selection ↔ x ∈ w.blockView.selectionModel.selection := by
  induction S generalizing w with
  | nil => exact ⟨w.blockView.selectionModel, rfl, rfl, fun _ => Iff.rfl⟩
  | cons i is ih =>
    obtain ⟨s1, h1, hc1, hm1⟩ := selectedStep_quiet emit w i (hpre i (List.mem_cons_self _ _))
    obtain ⟨s2, h2, hc2, hm2⟩ := ih (w.withSel (selHeap w.blockModel w.heap i) s1) (by
      intro j hj a hb hv
      exact (hm1 j).mpr (hpre j (List.mem_cons_of_mem _ hj) a hb hv))
    refine ⟨s2, ?_, hc2.trans hc1, fun x => (hm2 x).trans (hm1 x)⟩
    rw [List.foldlM_cons, h1]
    exact h2

theorem deselectedLoop_quiet
    (emit : QG_BlockWidget → List QModelIndex → List QModelIndex → Option QG_BlockWidget)
    (D : List QModelIndex) (w : QG_BlockWidget)
    (hpre : ∀ i ∈ D, ∀ a, w.blockModel.blockAt i.row = some a →
      (w.heap a).visibleInBlockList = true → i.isValid = true →
      i ∉ w.blockView.selectionModel.selection) :
    ∃ s2, D.foldlM (deselectedStep emit) w =
        some (w.withSel (D.foldl (deselHeap w.blockModel) w.heap) s2) ∧
      s2.currentIndex = w.blockView.selectionModel.currentIndex ∧
      ∀ x, x ∈ s2.selection ↔ x ∈ w.blockView.selectionModel.selection := by
  induction D generalizing w with
  | nil => exact ⟨w.blockView.selectionModel, rfl, rfl, fun _ => Iff.rfl⟩
  | cons i is ih =>
    obtain ⟨s1, h1, hc1, hm1⟩ := deselectedStep_quiet emit w i (hpre i (List.mem_cons_self _ _))
    obtain ⟨s2, h2, hc2, hm2⟩ := ih (w.withSel (deselHeap w.blockModel w.heap i) s1) (by
      intro j hj a hb hvis hv hmem
      have hvis2 : (w.heap a).visibleInBlockList = true := by
        rw [← deselHeap_visible w.blockModel w.heap i a]; exact hvis
      exact hpre j (List.mem_cons_of_mem _ hj) a hb hvis2 hv ((hm1 j).mp hmem))
    refine ⟨s2, ?_, hc2.trans hc1, fun x => (hm2 x).trans (hm1 x)⟩
    rw [List.foldlM_cons, h1]
    exact h2

/-- A run of the slot on a change the selection model really made (the selected
indexes are selected, the deselected ones are not) raises no further signal. -/
theorem slotBody_quiet
    (emit : QG_BlockWidget → List QModelIndex → List QModelIndex → Option QG_BlockWidget)
    (w : QG_BlockWidget) (S D : List QModelIndex)
    (hS : ∀ i ∈ S, i ∈ w.blockView.selectionModel.selection)
    (hD : ∀ i ∈ D, i ∉ w.blockView.selectionModel.selection) :
    ∃ s2, slotSelectionChangedBody emit w S D =
        some (w.withSel (heapAfter w.blockModel w.heap S D) s2) ∧
      s2.currentIndex = w.blockView.selectionModel.currentIndex ∧
      ∀ x, x ∈ s2.selection ↔ x ∈ w.blockView.selectionModel.selection := by
  obtain ⟨s1, h1, hc1, hm1⟩ := selectedLoop_quiet emit S w (fun i hi _ _ _ => hS i hi)
  obtain ⟨s2, h2, hc2, hm2⟩ := deselectedLoop_quiet emit D
    (w.withSel (S.foldl (selHeap w.blockModel) w.heap) s1) (by
      intro j hj a _ _ _ hmem
      exact hD j hj ((hm1 j).mp hmem))
  refine ⟨s2, ?_, hc2.trans hc1, fun x => (hm2 x).trans (hm1 x)⟩
  unfold slotSelectionChangedBody
  simp only [Option.bind_eq_bind, h1, Option.some_bind]
  exact h2

/-- The state of the selection model after `select(sel, command)`. -/
theorem select_total (n : Nat) (w : QG_BlockWidget) (sel : List QModelIndex)
    (c : SelectionFlags) :
    ∃ S D s2, w.select (QG_BlockWidget.slotSelectionChanged (n + 1)) sel c =
        some (w.withSel (heapAfter w.blockModel w.heap S D) s2) ∧
      s2.currentIndex = w.blockView.selectionModel.currentIndex ∧
      (∀ x, x ∈ s2.selection ↔
        x ∈ (if c.isNoUpdate then w.blockView.selectionModel
          else w.blockView.selectionModel.applySelect sel c).selection) ∧
      (∀ x ∈ S, x ∈ s2.selection ∧ x ∉ w.blockView.selectionModel.selection) ∧
      (∀ x ∈ D, x ∈ w.blockView.selectionModel.selection ∧ x ∉ s2.selection) := by
  by_cases hc : c.isNoUpdate = true
  · refine ⟨[], [], w.blockView.selectionModel, ?_, rfl, ?_, by simp, by simp⟩
    · simp [QG_BlockWidget.select, hc, heapAfter]; rfl
    · simp [hc]
  · simp only [hc, Bool.false_eq_true, if_false]
    unfold QG_BlockWidget.select
    simp only [hc, Bool.false_eq_true, if_false, selectionMerge_filter_valid]
    generalize hS : List.filter (fun i => !decide (i ∈
        List.filter QModelIndex.isValid (selectionMerge w.blockView.selectionModel.ranges
          w.blockView.selectionModel.currentSelection w.blockView.selectionModel.currentCommand)))
      (w.blockView.selectionModel.applySelect sel c).selection = S
    generalize hD : List.filter (fun i => !decide (i ∈
        (w.blockView.selectionModel.applySelect sel c).selection))
      (List.filter QModelIndex.isValid (selectionMerge w.blockView.selectionModel.ranges
          w.blockView.selectionModel.currentSelection w.blockView.selectionModel.currentCommand))
        = D
    have hSmem : ∀ x ∈ S, x ∈ (w.blockView.selectionModel.applySelect sel c).selection ∧
        x ∉ w.blockView.selectionModel.selection := by
      intro x hx
      rw [← hS, List.mem_filter] at hx
      have h3 := hx.2
      simp only [Bool.not_eq_true', decide_eq_false_iff_not] at h3
      exact ⟨hx.1, h3⟩
    have hDmem : ∀ x ∈ D, x ∈ w.blockView.selectionModel.selection ∧
        x ∉ (w.blockView.selectionModel.applySelect sel c).selection := by
      intro x hx
      rw [← hD, List.mem_filter] at hx
      exact ⟨hx.1, by simpa using hx.2⟩
    obtain ⟨s2, h2, hc2, hm2⟩ := slotBody_quiet (QG_BlockWidget.slotSelectionChanged n)
      (w.withSel w.heap (w.blockView.selectionModel.applySelect sel c)) S D
      (fun i hi => (hSmem i hi).1) (fun i hi => (hDmem i hi).2)
    by_cases hemp : (S.isEmpty && D.isEmpty) = true
    · simp only [hemp, if_true]
      simp only [Bool.and_eq_true, List.isEmpty_iff] at hemp
      refine ⟨S, D, w.blockView.selectionModel.applySelect sel c, ?_,
        applySelect_currentIndex _ _ _, fun _ => Iff.rfl, hSmem, hDmem⟩
      rw [hemp.1, hemp.2]
      rfl
    · simp only [hemp]
      refine ⟨S, D, s2, h2, hc2.trans (applySelect_currentIndex _ _ _), hm2, ?_, ?_⟩
      · exact fun x hx => ⟨(hm2 x).mpr (hSmem x hx).1, (hSmem x hx).2⟩
      · exact fun x hx => ⟨(hDmem x hx).1, fun h => (hDmem x hx).2 ((hm2 x).mp h)⟩

theorem setSelected_idem (h : Heap) (a : Nat) (v : Bool) :
    setSelectedInBlockList (setSelectedInBlockList h a v) a v = setSelectedInBlockList h a v := by
  funext x
  unfold setSelectedInBlockList
  by_cases hx : x = a <;> simp [hx]

theorem setSelected_self (h : Heap) (a : Nat) (v : Bool) :
    (setSelectedInBlockList h a v a).selectedInBlockList = v := by
  simp [setSelectedInBlockList]

theorem setSelected_other (h : Heap) (a : Nat) (v : Bool) (x : Nat) (hx : x ≠ a) :
    setSelectedInBlockList h a v x = h x := by
  simp [setSelectedInBlockList, hx]

theorem selectedStep_total (n : Nat) (w : QG_BlockWidget) (i : QModelIndex) :
    ∃ s2, selectedStep (QG_BlockWidget.slotSelectionChanged (n + 1)) w i =
        some (w.withSel (selHeap w.blockModel w.heap i) s2) ∧
      s2.currentIndex = w.blockView.selectionModel.currentIndex := by
  unfold selectedStep
  rw [getBlock_blockAt]
  cases hb : w.blockModel.blockAt i.row with
  | none =>
    refine ⟨w.blockView.selectionModel, ?_, rfl⟩
    simp [selHeap, hb]; rfl
  | some a =>
    simp only [Option.bind_eq_bind, Option.some_bind]
    obtain ⟨S, D, s2, h2, hc2, hm2, hS, hD⟩ := select_total n
      { w with heap := setSelectedInBlockList w.heap a true } (itemSelection i)
      SelectionFlags.Select
    refine ⟨s2, ?_, hc2⟩
    rw [h2]
    have hDnil : D = [] := by
      rw [List.eq_nil_iff_forall_not_mem]
      intro x hx
      apply (hD x hx).2
      rw [hm2]
      simp only [SelectionFlags.isNoUpdate, SelectionFlags.Select, Bool.or_true, Bool.true_or,
        Bool.or_false, Bool.not_true, Bool.false_eq_true, if_false]
      exact (mem_applySelect_Select _ i x).mpr (Or.inl (hD x hx).1)
    have hSi : ∀ x ∈ S, x = i := by
      intro x hx
      have h3 := (hm2 x).mp (hS x hx).1
      simp only [SelectionFlags.isNoUpdate, SelectionFlags.Select, Bool.or_true, Bool.true_or,
        Bool.or_false, Bool.not_true, Bool.false_eq_true, if_false] at h3
      rcases (mem_applySelect_Select _ i x).mp h3 with h4 | h4
      · exact absurd h4 (hS x hx).2
      · exact h4.2
    have hheap : heapAfter w.blockModel (setSelectedInBlockList w.heap a true) S D =
        selHeap w.blockModel w.heap i := by
      rw [hDnil]
      simp only [heapAfter, List.foldl_nil]
      rw [foldl_fixed]
      · simp [selHeap, hb]
      · intro x hx
        rw [hSi x hx]
        simp only [selHeap, hb]
        exact setSelected_idem _ _ _
    show some ((QG_BlockWidget.withSel _ _ s2)) = _
    simp only [hheap]
    rfl

theorem deselectedStep_total (n : Nat) (w : QG_BlockWidget) (i : QModelIndex) :
    ∃ s2, deselectedStep (QG_BlockWidget.slotSelectionChanged (n + 1)) w i =
        some (w.withSel (deselHeap w.blockModel w.heap i) s2) ∧
      s2.currentIndex = w.blockView.selectionModel.currentIndex := by
  unfold deselectedStep
  rw [getBlock_blockAt]
  cases hb : w.blockModel.blockAt i.row with
  | none =>
    refine ⟨w.blockView.selectionModel, ?_, rfl⟩
    simp [deselHeap, hb]; rfl
  | some a =>
    simp only [Option.bind_eq_bind, Option.some_bind]
    by_cases hv : (w.heap a).visibleInBlockList = true
    · simp only [hv, if_true]
      obtain ⟨S, D, s2, h2, hc2, hm2, hS, hD⟩ := select_total n
        { w with heap := setSelectedInBlockList w.heap a false } (itemSelection i)
        SelectionFlags.Deselect
      refine ⟨s2, ?_, hc2⟩
      rw [h2]
      have hSnil : S = [] := by
        rw [List.eq_nil_iff_forall_not_mem]
        intro x hx
        apply (hS x hx).2
        have h3 := (hm2 x).mp (hS x hx).1
        simp only [SelectionFlags.isNoUpdate, SelectionFlags.Deselect, Bool.or_true, Bool.true_or,
          Bool.or_false, Bool.not_true, Bool.false_eq_true, if_false] at h3
        exact ((mem_applySelect_Deselect _ i x).mp h3).1
      have hDi : ∀ x ∈ D, x = i := by
        intro x hx
        by_contra hne
        apply (hD x hx).2
        rw [hm2]
        simp only [SelectionFlags.isNoUpdate, SelectionFlags.Deselect, Bool.or_true, Bool.true_or,
          Bool.or_false, Bool.not_true, Bool.false_eq_true, if_false]
        exact (mem_applySelect_Deselect _ i x).mpr ⟨(hD x hx).1, fun h4 => hne h4.2⟩
      have hheap : heapAfter w.blockModel (setSelectedInBlockList w.heap a false) S D =
          deselHeap w.blockModel w.heap i := by
        rw [hSnil]
        simp only [heapAfter, List.foldl_nil]
        rw [foldl_fixed]
        · simp [deselHeap, hb, hv]
        · intro x hx
          rw [hDi x hx]
          simp only [deselHeap, hb]
          split
          · exact setSelected_idem _ _ _
          · rfl
      show some ((QG_BlockWidget.withSel _ _ s2)) = _
      simp only [hheap]
      rfl
    · refine ⟨w.blockView.selectionModel, ?_, rfl⟩
      simp [deselHeap, hb, hv]; rfl

theorem selectedLoop_total (n : Nat) (S : List QModelIndex) (w : QG_BlockWidget) :
    ∃ s2, S.foldlM (selectedStep (QG_BlockWidget.slotSelectionChanged (n + 1))) w =
        some (w.withSel (S.foldl (selHeap w.blockModel) w.heap) s2) ∧
      s2.currentIndex = w.blockView.selectionModel.currentIndex := by
  induction S generalizing w with
  | nil => exact ⟨w.blockView.selectionModel, rfl, rfl⟩
  | cons i is ih =>
    obtain ⟨s1, h1, hc1⟩ := selectedStep_total n w i
    obtain ⟨s2, h2, hc2⟩ := ih (w.withSel (selHeap w.blockModel w.heap i) s1)
    refine ⟨s2, ?_, hc2.trans hc1⟩
    rw [List.foldlM_cons, h1]
    exact h2

theorem deselectedLoop_total (n : Nat) (D : List QModelIndex) (w : QG_BlockWidget) :
    ∃ s2, D.foldlM (deselectedStep (QG_BlockWidget.slotSelectionChanged (n + 1))) w =
        some (w.withSel (D.foldl (deselHeap w.blockModel) w.heap) s2) ∧
      s2.currentIndex = w.blockView.selectionModel.currentIndex := by
  induction D generalizing w with
  | nil => exact ⟨w.blockView.selectionModel, rfl, rfl⟩
  | cons i is ih =>
    obtain ⟨s1, h1, hc1⟩ := deselectedStep_total n w i
    obtain ⟨s2, h2, hc2⟩ := ih (w.withSel (deselHeap w.blockModel w.heap i) s1)
    refine ⟨s2, ?_, hc2.trans hc1⟩
    rw [List.foldlM_cons, h1]
    exact h2

/-- With a budget of two nested signals the slot returns, whatever the two index lists
are: the heap is the one left by its two loops, and only the selection model of the view
changes besides. -/
theorem slotSelectionChanged_total (n : Nat) (w : QG_BlockWidget) (S D : List QModelIndex) :
    ∃ s2, w.slotSelectionChanged (n + 2) S D =
        some (w.withSel (heapAfter w.blockModel w.heap S D) s2) ∧
      s2.currentIndex = w.blockView.selectionModel.currentIndex := by
  obtain ⟨s1, h1, hc1⟩ := selectedLoop_total n S w
  obtain ⟨s2, h2, hc2⟩ := deselectedLoop_total n D
    (w.withSel (S.foldl (selHeap w.blockModel) w.heap) s1)
  refine ⟨s2, ?_, hc2.trans hc1⟩
  show slotSelectionChangedBody (QG_BlockWidget.slotSelectionChanged (n + 1)) w S D = _
  unfold slotSelectionChangedBody
  simp only [Option.bind_eq_bind, h1, Option.some_bind]
  exact h2

/-! ## The flags left by the two loops -/

theorem setSelected_frame (h : Heap) (a : Nat) (v : Bool) (x : Nat) :
    { setSelectedInBlockList h a v x with selectedInBlockList := (h x).selectedInBlockList } =
      h x := by
  unfold setSelectedInBlockList
  by_cases hx : x = a <;> simp [hx]

theorem selHeap_frame (m : QG_BlockModel) (h : Heap) (i : QModelIndex) (x : Nat) :
    { selHeap m h i x with selectedInBlockList := (h x).selectedInBlockList } = h x := by
  unfold selHeap
  cases m.blockAt i.row with
  | none => rfl
  | some a => exact setSelected_frame _ _ _ _

theorem deselHeap_frame (m : QG_BlockModel) (h : Heap) (i : QModelIndex) (x : Nat) :
    { deselHeap m h i x with selectedInBlockList := (h x).selectedInBlockList } = h x := by
  unfold deselHeap
  cases m.blockAt i.row with
  | none => rfl
  | some a =>
    by_cases hv : (h a).visibleInBlockList = true
    · simp only [hv, if_true]
      exact setSelected_frame _ _ _ _
    · simp only [hv]
      rfl

theorem frame_trans (b c d : RS_Block)
    (h1 : { c with selectedInBlockList := b.selectedInBlockList } = b)
    (h2 : { d with selectedInBlockList := c.selectedInBlockList } = c) :
    { d with selectedInBlockList := b.selectedInBlockList } = b := by
  cases b; cases c; cases d
  simp only [RS_Block.mk.injEq] at *
  simp [h1.1, h1.2.1, h1.2.2.1, h1.2.2.2.1, h2.1, h2.2.1, h2.2.2.1, h2.2.2.2.1]

theorem foldl_selHeap_frame (m : QG_BlockModel) (l : List QModelIndex) (h : Heap) (x : Nat) :
    { l.foldl (selHeap m) h x with selectedInBlockList := (h x).selectedInBlockList } = h x := by
  induction l generalizing h with
  | nil => rfl
  | cons i is ih =>
    rw [List.foldl_cons]
    exact frame_trans _ _ _ (selHeap_frame m h i x) (ih (selHeap m h i))

theorem foldl_deselHeap_frame (m : QG_BlockModel) (l : List QModelIndex) (h : Heap) (x : Nat) :
    { l.foldl (deselHeap m) h x with selectedInBlockList := (h x).selectedInBlockList } = h x := by
  induction l generalizing h with
  | nil => rfl
  | cons i is ih =>
    rw [List.foldl_cons]
    exact frame_trans _ _ _ (deselHeap_frame m h i x) (ih (deselHeap m h i))

theorem heapAfter_frame (m : QG_BlockModel) (h : Heap) (S D : List QModelIndex) (x : Nat) :
    { heapAfter m h S D x with selectedInBlockList := (h x).selectedInBlockList } = h x :=
  frame_trans _ _ _ (foldl_selHeap_frame m S h x) (foldl_deselHeap_frame m D _ x)

theorem foldl_selHeap_keeps_true (m : QG_BlockModel) (l : List QModelIndex) (h : Heap) (a : Nat)
    (ha : (h a).selectedInBlockList = true) :
    (l.foldl (selHeap m) h a).selectedInBlockList = true := by
  induction l generalizing h with
  | nil => exact ha
  | cons i is ih =>
    rw [List.foldl_cons]
    apply ih
    unfold selHeap
    cases m.blockAt i.row with
    | none => exact ha
    | some b =>
      dsimp only
      by_cases hab : a = b
      · rw [hab]; exact setSelected_self _ _ _
      · rw [setSelected_other _ _ _ _ hab]; exact ha

theorem foldl_deselHeap_keeps_false (m : QG_BlockModel) (l : List QModelIndex) (h : Heap)
    (a : Nat) (ha : (h a).selectedInBlockList = false) :
    (l.foldl (deselHeap m) h a).selectedInBlockList = false := by
  induction l generalizing h with
  | nil => exact ha
  | cons i is ih =>
    rw [List.foldl_cons]
    apply ih
    unfold deselHeap
    cases m.blockAt i.row with
    | none => exact ha
    | some b =>
      dsimp only
      by_cases hv : (h b).visibleInBlockList = true
      · simp only [hv, if_true]
        by_cases hab : a = b
        · rw [hab]; exact setSelected_self _ _ _
        · rw [setSelected_other _ _ _ _ hab]; exact ha
      · simp only [hv]
        exact ha

theorem foldl_selHeap_of_mem (m : QG_BlockModel) (l : List QModelIndex) (h : Heap) (a : Nat)
    (hmem : ∃ i ∈ l, m.blockAt i.row = some a) :
    (l.foldl (selHeap m) h a).selectedInBlockList = true := by
  induction l generalizing h with
  | nil => obtain ⟨i, hi, _⟩ := hmem; cases hi
  | cons j js ih =>
    rw [List.foldl_cons]
    by_cases hj : m.blockAt j.row = some a
    · apply foldl_selHeap_keeps_true
      simp only [selHeap, hj]
      exact setSelected_self _ _ _
    · apply ih
      obtain ⟨i, hi, hia⟩ := hmem
      rcases List.mem_cons.mp hi with rfl | hi
      · exact absurd hia hj
      · exact ⟨i, hi, hia⟩

theorem foldl_selHeap_of_not_mem (m : QG_BlockModel) (l : List QModelIndex) (h : Heap) (a : Nat)
    (hmem : ∀ i ∈ l, m.blockAt i.row ≠ some a) :
    l.foldl (selHeap m) h a = h a := by
  induction l generalizing h with
  | nil => rfl
  | cons j js ih =>
    rw [List.foldl_cons, ih _ (fun i hi => hmem i (List.mem_cons_of_mem _ hi))]
    have hj := hmem j (List.mem_cons_self _ _)
    unfold selHeap
    cases hb : m.blockAt j.row with
    | none => rfl
    | some b =>
      apply setSelected_other
      rintro rfl
      exact hj hb

theorem foldl_deselHeap_of_not_mem (m : QG_BlockModel) (l : List QModelIndex) (h : Heap)
    (a : Nat) (hmem : ∀ i ∈ l, m.blockAt i.row ≠ some a) :
    l.foldl (deselHeap m) h a = h a := by
  induction l generalizing h with
  | nil => rfl
  | cons j js ih =>
    rw [List.foldl_cons, ih _ (fun i hi => hmem i (List.mem_cons_of_mem _ hi))]
    have hj := hmem j (List.mem_cons_self _ _)
    unfold deselHeap
    cases hb : m.blockAt j.row with
    | none => rfl
    | some b =>
      by_cases hv : (h b).visibleInBlockList = true
      · simp only [hv, if_true]
        apply setSelected_other
        rintro rfl
        exact hj hb
      · simp only [hv]
        rfl

theorem foldl_deselHeap_of_not_visible (m : QG_BlockModel) (l : List QModelIndex) (h : Heap)
    (a : Nat) (hv : (h a).visibleInBlockList = false) :
    l.foldl (deselHeap m) h a = h a := by
  induction l generalizing h with
  | nil => rfl
  | cons j js ih =>
    rw [List.foldl_cons, ih _ (by rw [deselHeap_visible]; exact hv)]
    unfold deselHeap
    cases m.blockAt j.row with
    | none => rfl
    | some b =>
      by_cases hvb : (h b).visibleInBlockList = true
      · simp only [hvb, if_true]
        apply setSelected_other
        rintro rfl
        rw [hv] at hvb
        exact absurd hvb (by decide)
      · simp only [hvb]
        rfl

theorem foldl_deselHeap_of_mem (m : QG_BlockModel) (l : List QModelIndex) (h : Heap) (a : Nat)
    (hmem : ∃ i ∈ l, m.blockAt i.row = some a) (hv : (h a).visibleInBlockList = true) :
    (l.foldl (deselHeap m) h a).selectedInBlockList = false := by
  induction l generalizing h with
  | nil => obtain ⟨i, hi, _⟩ := hmem; cases hi
  | cons j js ih =>
    rw [List.foldl_cons]
    by_cases hj : m.blockAt j.row = some a
    · apply foldl_deselHeap_keeps_false
      simp only [deselHeap, hj, hv, if_true]
      exact setSelected_self _ _ _
    · apply ih
      · obtain ⟨i, hi, hia⟩ := hmem
        rcases List.mem_cons.mp hi with rfl | hi
        · exact absurd hia hj
        · exact ⟨i, hi, hia⟩
      · rw [deselHeap_visible]; exact hv

theorem blockAt_some (m : QG_BlockModel) (r : Int) (a : Nat) (h : m.blockAt r = some a) :
    0 ≤ r ∧ ∃ hr : r.toNat < m.listBlock.length, m.listBlock[r.toNat] = some a := by
  unfold QG_BlockModel.blockAt QG_BlockModel.rowCount at h
  by_cases hc : r < 0 ∨ r ≥ (m.listBlock.length : Int)
  · simp [hc] at h
  · simp only [hc, if_false] at h
    have hr : r.toNat < m.listBlock.length := by omega
    rw [List.getD_eq_getElem _ _ hr] at h
    exact ⟨by omega, hr, h⟩

theorem blockAt_out_of_range (m : QG_BlockModel) (r : Int) (h : r < 0 ∨ r ≥ m.rowCount) :
    m.blockAt r = none := by
  simp [QG_BlockModel.blockAt, h]

theorem getBlock_some_iff (m : QG_BlockModel) (r : Int) (p : RS_BlockPtr) :
    m.getBlock r = some p ↔ m.blockAt r = p := by
  rw [getBlock_blockAt]
  exact ⟨Option.some.inj, fun h => by rw [h]⟩

/-- C3: with a budget of two nested signals `slotSelectionChanged(selected, deselected)`
returns for every pair of index lists; it changes nothing but the selected flag of blocks
and the selection model of the view.  A block at a row of `selected` that is at no row of
`deselected` ends selected (with pairwise distinct rows: a block at a row of `selected`
whose row is not in `deselected`); a block at a row of `deselected` that is visible in
the block list ends deselected; one that is not visible keeps the flag it had after the
first loop (set if it is at a row of `selected`, its old flag otherwise); a block at no
row of either list keeps its flag; an index whose row is out of range is skipped by both
loops. -/
theorem slotSelectionChanged_mirrors (n : Nat) (w : QG_BlockWidget)
    (selected deselected : List QModelIndex) :
    ∃ w2, w.slotSelectionChanged (n + 2) selected deselected = some w2 ∧
      w2.blockList = w.blockList ∧ w2.lastBlock = w.lastBlock ∧
      w2.blockModel = w.blockModel ∧ w2.matchBlockName = w.matchBlockName ∧
      w2.blockView.rowHidden = w.blockView.rowHidden ∧
      w2.blockView.selectionModel.currentIndex = w.blockView.selectionModel.currentIndex ∧
      (∀ a, { w2.heap a with selectedInBlockList := (w.heap a).selectedInBlockList } = w.heap a) ∧
      (∀ a, (∃ i ∈ selected, w.blockModel.getBlock i.row = some (some a)) →
        (∀ j ∈ deselected, w.blockModel.getBlock j.row ≠ some (some a)) →
        (w2.heap a).selectedInBlockList = true) ∧
      (w.blockModel.listBlock.Nodup → ∀ i ∈ selected, ∀ a,
        w.blockModel.getBlock i.row = some (some a) →
        (∀ j ∈ deselected, j.row ≠ i.row) → (w2.heap a).selectedInBlockList = true) ∧
      (∀ a, (∃ j ∈ deselected, w.blockModel.getBlock j.row = some (some a)) →
        (w.heap a).visibleInBlockList = true → (w2.heap a).selectedInBlockList = false) ∧
      (∀ a, (∃ j ∈ deselected, w.blockModel.getBlock j.row = some (some a)) →
        (w.heap a).visibleInBlockList = false →
        (∃ i ∈ selected, w.blockModel.getBlock i.row = some (some a)) →
        (w2.heap a).selectedInBlockList = true) ∧
      (∀ a, (∃ j ∈ deselected, w.blockModel.getBlock j.row = some (some a)) →
        (w.heap a).visibleInBlockList = false →
        (∀ i ∈ selected, w.blockModel.getBlock i.row ≠ some (some a)) →
        w2.heap a = w.heap a) ∧
      (∀ a, (∀ i ∈ selected, w.blockModel.getBlock i.row ≠ some (some a)) →
        (∀ j ∈ deselected, w.blockModel.getBlock j.row ≠ some (some a)) →
        w2.heap a = w.heap a) ∧
      (∀ emit v i, (i.row < 0 ∨ i.row ≥ v.blockModel.rowCount) →
        selectedStep emit v i = some v ∧ deselectedStep emit v i = some v) := by
  obtain ⟨s2, h2, hc2⟩ := slotSelectionChanged_total n w selected deselected
  have hex : ∀ (l : List QModelIndex) (a : Nat),
      (∃ i ∈ l, w.blockModel.getBlock i.row = some (some a)) →
        ∃ i ∈ l, w.blockModel.blockAt i.row = some a := by
    rintro l a ⟨i, hi, hia⟩
    exact ⟨i, hi, (getBlock_some_iff _ _ _).mp hia⟩
  have hall : ∀ (l : List QModelIndex) (a : Nat),
      (∀ i ∈ l, w.blockModel.getBlock i.row ≠ some (some a)) →
        ∀ i ∈ l, w.blockModel.blockAt i.row ≠ some a := by
    intro l a h i hi hia
    exact h i hi ((getBlock_some_iff _ _ _).mpr hia)
  have hP1 : ∀ a, (∃ i ∈ selected, w.blockModel.getBlock i.row = some (some a)) →
      (∀ j ∈ deselected, w.blockModel.getBlock j.row ≠ some (some a)) →
      (heapAfter w.blockModel w.heap selected deselected a).selectedInBlockList = true := by
    intro a hS hD
    unfold heapAfter
    rw [foldl_deselHeap_of_not_mem _ _ _ _ (hall _ _ hD)]
    exact foldl_selHeap_of_mem _ _ _ _ (hex _ _ hS)
  refine ⟨_, h2, rfl, rfl, rfl, rfl, rfl, hc2, ?_, hP1, ?_, ?_, ?_, ?_, ?_, ?_⟩
  · intro a
    exact heapAfter_frame _ _ _ _ _
  · intro hnd i hi a hia hrows
    refine hP1 a ⟨i, hi, hia⟩ ?_
    intro j hj hja
    apply hrows j hj
    obtain ⟨hi0, hir, hie⟩ := blockAt_some _ _ _ ((getBlock_some_iff _ _ _).mp hia)
    obtain ⟨hj0, hjr, hje⟩ := blockAt_some _ _ _ ((getBlock_some_iff _ _ _).mp hja)
    have := (@List.Nodup.getElem_inj_iff _ _ hnd _ hjr _ hir).mp (hje.trans hie.symm)
    omega
  · intro a hD hv
    show (heapAfter w.blockModel w.heap selected deselected a).selectedInBlockList = false
    unfold heapAfter
    apply foldl_deselHeap_of_mem _ _ _ _ (hex _ _ hD)
    rw [foldl_selHeap_visible]; exact hv
  · intro a _ hv hS
    show (heapAfter w.blockModel w.heap selected deselected a).selectedInBlockList = true
    unfold heapAfter
    rw [foldl_deselHeap_of_not_visible _ _ _ _ (by rw [foldl_selHeap_visible]; exact hv)]
    exact foldl_selHeap_of_mem _ _ _ _ (hex _ _ hS)
  · intro a _ hv hS
    show heapAfter w.blockModel w.heap selected deselected a = w.heap a
    unfold heapAfter
    rw [foldl_deselHeap_of_not_visible _ _ _ _ (by rw [foldl_selHeap_visible]; exact hv)]
    exact foldl_selHeap_of_not_mem _ _ _ _ (hall _ _ hS)
  · intro a hS hD
    show heapAfter w.blockModel w.heap selected deselected a = w.heap a
    unfold heapAfter
    rw [foldl_deselHeap_of_not_mem _ _ _ _ (hall _ _ hD)]
    exact foldl_selHeap_of_not_mem _ _ _ _ (hall _ _ hS)
  · intro emit v i hi
    have hb := blockAt_out_of_range _ _ hi
    constructor
    · simp [selectedStep, getBlock_blockAt, hb]
    · simp [deselectedStep, getBlock_blockAt, hb]

/-! ## Activating a block -/

theorem select_Select_total (n : Nat) (w : QG_BlockWidget) (i : QModelIndex) :
    ∃ (S : List QModelIndex) (s2 : QItemSelectionModel), w.select (QG_BlockWidget.slotSelectionChanged (n + 1)) (itemSelection i)
          SelectionFlags.Select =
        some (w.withSel (S.foldl (selHeap w.blockModel) w.heap) s2) ∧
      s2.currentIndex = w.blockView.selectionModel.currentIndex ∧
      (∀ x, x ∈ s2.selection ↔
        (x ∈ w.blockView.selectionModel.selection ∨ (i.isValid = true ∧ x = i))) ∧
      (∀ x ∈ S, x = i) := by
  obtain ⟨S, D, s2, h2, hc2, hm2, hS, hD⟩ := select_total n w (itemSelection i)
    SelectionFlags.Select
  have hm : ∀ x, x ∈ s2.selection ↔
      (x ∈ w.blockView.selectionModel.selection ∨ (i.isValid = true ∧ x = i)) := by
    intro x
    rw [hm2]
    simp only [SelectionFlags.isNoUpdate, SelectionFlags.Select, Bool.or_true, Bool.true_or,
      Bool.or_false, Bool.not_true, Bool.false_eq_true, if_false]
    exact mem_applySelect_Select _ i x
  have hDnil : D = [] := by
    rw [List.eq_nil_iff_forall_not_mem]
    intro x hx
    exact (hD x hx).2 ((hm x).mpr (Or.inl (hD x hx).1))
  refine ⟨S, s2, ?_, hc2, hm, ?_⟩
  · rw [h2, hDnil]; rfl
  · intro x hx
    rcases (hm x).mp (hS x hx).1 with h4 | h4
    · exact absurd h4 (hS x hx).2
    · exact h4.2

theorem select_Deselect_total (n : Nat) (w : QG_BlockWidget) (i : QModelIndex) :
    ∃ (D : List QModelIndex) (s2 : QItemSelectionModel), w.select (QG_BlockWidget.slotSelectionChanged (n + 1)) (itemSelection i)
          SelectionFlags.Deselect =
        some (w.withSel (D.foldl (deselHeap w.blockModel) w.heap) s2) ∧
      s2.currentIndex = w.blockView.selectionModel.currentIndex ∧
      (∀ x, x ∈ s2.selection ↔
        (x ∈ w.blockView.selectionModel.selection ∧ ¬ (i.isValid = true ∧ x = i))) ∧
      (∀ x ∈ D, x = i) := by
  obtain ⟨S, D, s2, h2, hc2, hm2, hS, hD⟩ := select_total n w (itemSelection i)
    SelectionFlags.Deselect
  have hm : ∀ x, x ∈ s2.selection ↔
      (x ∈ w.blockView.selectionModel.selection ∧ ¬ (i.isValid = true ∧ x = i)) := by
    intro x
    rw [hm2]
    simp only [SelectionFlags.isNoUpdate, SelectionFlags.Deselect, Bool.or_true, Bool.true_or,
      Bool.or_false, Bool.not_true, Bool.false_eq_true, if_false]
    exact mem_applySelect_Deselect _ i x
  have hSnil : S = [] := by
    rw [List.eq_nil_iff_forall_not_mem]
    intro x hx
    exact (hS x hx).2 ((hm x).mp (hS x hx).1).1
  refine ⟨D, s2, ?_, hc2, hm, ?_⟩
  · rw [h2, hSnil]; rfl
  · intro x hx
    by_contra hne
    exact (hD x hx).2 ((hm x).mpr ⟨(hD x hx).1, fun h4 => hne h4.2⟩)

theorem qlistIndexOf_ge {α : Type} [DecidableEq α] (l : List α) (x : α) :
    -1 ≤ qlistIndexOf l x := by
  induction l with
  | nil => simp [qlistIndexOf]
  | cons y ys ih =>
    simp only [qlistIndexOf]
    split
    · omega
    · split <;> omega

theorem qlistIndexOf_of_mem {α : Type} [DecidableEq α] (l : List α) (x : α) (hx : x ∈ l) :
    0 ≤ qlistIndexOf l x ∧
      ∃ h : (qlistIndexOf l x).toNat < l.length, l[(qlistIndexOf l x).toNat] = x := by
  induction l with
  | nil => cases hx
  | cons y ys ih =>
    simp only [qlistIndexOf]
    by_cases hy : y = x
    · simp [hy]
    · simp only [hy, if_false]
      have hx2 : x ∈ ys := by
        rcases List.mem_cons.mp hx with h | h
        · exact absurd h.symm hy
        · exact h
      obtain ⟨h0, hlt, hget⟩ := ih hx2
      have hneg : ¬ qlistIndexOf ys x < 0 := by omega
      simp only [hneg, if_false]
      have ht : (qlistIndexOf ys x + 1).toNat = (qlistIndexOf ys x).toNat + 1 := by omega
      refine ⟨by omega, ?_, ?_⟩
      · rw [ht, List.length_cons]; omega
      · simp only [ht, List.getElem_cons_succ]
        exact hget

theorem qlistIndexOf_of_not_mem {α : Type} [DecidableEq α] (l : List α) (x : α) (hx : x ∉ l) :
    qlistIndexOf l x = -1 := by
  induction l with
  | nil => simp [qlistIndexOf]
  | cons y ys ih =>
    simp only [qlistIndexOf]
    have hy : ¬ y = x := fun h => hx (by simp [h])
    have := ih (fun h => hx (List.mem_cons_of_mem _ h))
    simp [hy, this]

/-- The index `getIndex` gives for a block of the model: valid, in column NAME, at a row
that holds the block. -/
theorem getIndex_of_mem (m : QG_BlockModel) (p : RS_BlockPtr) (hp : p ∈ m.listBlock) :
    (m.getIndex p).isValid = true ∧ (m.getIndex p).column = NAME ∧
      m.getBlock (m.getIndex p).row = some p := by
  obtain ⟨h0, hlt, hget⟩ := qlistIndexOf_of_mem m.listBlock p hp
  have hneg : ¬ qlistIndexOf m.listBlock p < 0 := by omega
  have heq : m.getIndex p = ⟨qlistIndexOf m.listBlock p, NAME, true⟩ := by
    simp only [QG_BlockModel.getIndex, hneg, if_false, createIndex]
  rw [heq]
  refine ⟨?_, rfl, ?_⟩
  · simp [QModelIndex.isValid, h0, NAME]
  · rw [getBlock_eq, QG_BlockModel.rowCount]
    have : ¬ (qlistIndexOf m.listBlock p < 0 ∨ qlistIndexOf m.listBlock p ≥ (m.listBlock.length : Int)) := by
      omega
    simp only [this, if_false]
    rw [List.getD_eq_getElem _ _ hlt, hget]

theorem getIndex_of_not_mem (m : QG_BlockModel) (p : RS_BlockPtr) (hp : p ∉ m.listBlock) :
    m.getIndex p = QModelIndex.invalid := by
  simp [QG_BlockModel.getIndex, qlistIndexOf_of_not_mem _ _ hp]

/-- The state `activateBlock` returns for a non-null block and a non-null block list,
with a budget of one nested signal and whatever command the view selects with. -/
theorem activateBlock_total (n : Nat) (w : QG_BlockWidget) (a : Nat) (bl : RS_BlockList)
    (c : SelectionFlags) (hbl : w.blockList = some bl) :
    ∃ (h2 : Heap) (s2 : QItemSelectionModel),
      w.activateBlock (n + 1) (some a) c =
        some { heap := h2, blockList := some (bl.activate (some a)), lastBlock := bl.getActive,
               blockModel := w.blockModel.setActiveBlock (some a),
               blockView := { w.blockView with selectionModel := s2 },
               matchBlockName := w.matchBlockName } ∧
      (h2 a).selectedInBlockList = (w.heap a).selectedInBlockList ∧
      (∀ x, { h2 x with selectedInBlockList := (w.heap x).selectedInBlockList } = w.heap x) ∧
      s2.currentIndex = w.blockModel.getIndex (some a) ∧
      ((w.blockModel.getIndex (some a)).isValid = true →
        (w.blockModel.getIndex (some a) ∈ s2.selection ↔
          (w.heap a).selectedInBlockList = true)) := by
  unfold QG_BlockWidget.activateBlock
  simp only [hbl, Option.bind_eq_bind]
  unfold QG_BlockWidget.setCurrentIndex
  obtain ⟨S, D, s1, h1, hc1, -, -, -⟩ := select_total n
    { heap := w.heap, blockList := some (bl.activate (some a)), lastBlock := bl.getActive,
      blockModel := w.blockModel,
      blockView := { w.blockView with selectionModel :=
        { w.blockView.selectionModel with currentIndex := w.blockModel.getIndex (some a) } },
      matchBlockName := w.matchBlockName }
    (itemSelection (w.blockModel.getIndex (some a))) c
  rw [h1]
  simp only [Option.some_bind]
  by_cases hsel : (w.heap a).selectedInBlockList = true
  · simp only [hsel, if_true]
    obtain ⟨S2, s2, h2, hc2, hm2, -⟩ := select_Select_total n
      { heap := setSelectedInBlockList
          (heapAfter w.blockModel w.heap S D) a true,
        blockList := some (bl.activate (some a)), lastBlock := bl.getActive,
        blockModel := w.blockModel.setActiveBlock (some a),
        blockView := { w.blockView with selectionModel := s1 },
        matchBlockName := w.matchBlockName }
      (w.blockModel.getIndex (some a))
    refine ⟨_, s2, h2, ?_, ?_, hc2.trans hc1, ?_⟩
    · exact foldl_selHeap_keeps_true _ _ _ _ (setSelected_self _ _ _)
    · intro x
      refine frame_trans _ _ _ ?_ (foldl_selHeap_frame _ _ _ x)
      exact frame_trans _ _ _ (heapAfter_frame _ _ _ _ x) (setSelected_frame _ _ _ x)
    · intro hv
      rw [hm2]
      simp [hv]
  · have hsel2 : (w.heap a).selectedInBlockList = false := by
      simpa using hsel
    simp only [hsel2, Bool.false_eq_true, if_false]
    obtain ⟨D2, s2, h2, hc2, hm2, -⟩ := select_Deselect_total n
      { heap := setSelectedInBlockList
          (heapAfter w.blockModel w.heap S D) a false,
        blockList := some (bl.activate (some a)), lastBlock := bl.getActive,
        blockModel := w.blockModel.setActiveBlock (some a),
        blockView := { w.blockView with selectionModel := s1 },
        matchBlockName := w.matchBlockName }
      (w.blockModel.getIndex (some a))
    refine ⟨_, s2, h2, ?_, ?_, hc2.trans hc1, ?_⟩
    · exact foldl_deselHeap_keeps_false _ _ _ _ (setSelected_self _ _ _)
    · intro x
      refine frame_trans _ _ _ ?_ (foldl_deselHeap_frame _ _ _ x)
      exact frame_trans _ _ _ (heapAfter_frame _ _ _ _ x) (setSelected_frame _ _ _ x)
    · intro hv
      rw [hm2]
      simp [hv]

/-- C4: for a non-null block and a non-null block list `activateBlock(block)` returns
(with a budget of one nested signal, whatever command the view selects with), and then
the active block of the block list is `block`, the active block of the model is `block`,
and `lastBlock` is the block that was active in the block list before the call.  When
`block` or the block list is null the call returns the state it was given. -/
theorem activateBlock_activates (n : Nat) (w : QG_BlockWidget) (c : SelectionFlags) :
    (∀ a bl, w.blockList = some bl →
      ∃ w2 bl2, w.activateBlock (n + 1) (some a) c = some w2 ∧
        w2.blockList = some bl2 ∧ bl2.getActive = some a ∧ bl2.blocks = bl.blocks ∧
        w2.blockModel.activeBlock = some a ∧
        w2.blockModel.listBlock = w.blockModel.listBlock ∧
        w2.lastBlock = bl.getActive) ∧
    w.activateBlock n none c = some w ∧
    (∀ block, w.blockList = none → w.activateBlock n block c = some w) := by
  refine ⟨?_, ?_, ?_⟩
  · intro a bl hbl
    obtain ⟨h2, s2, hres, -⟩ := activateBlock_total n w a bl c hbl
    exact ⟨_, _, hres, rfl, rfl, rfl, rfl, rfl, rfl⟩
  · unfold QG_BlockWidget.activateBlock
    cases w.blockList <;> rfl
  · intro block hbl
    unfold QG_BlockWidget.activateBlock
    cases block <;> simp [hbl]

/-- C5: for a non-null block and a non-null block list `activateBlock(block)` returns
(with a budget of one nested signal, whatever command the view selects with) a state in
which the selected flag of `block` is the one it had before the call, no other attribute
of any block has changed, and, when the block has a row in the model, the index of that
row is selected in the view exactly when the flag was set. -/
theorem activateBlock_restores_selected (n : Nat) (w : QG_BlockWidget) (a : Nat)
    (bl : RS_BlockList) (c : SelectionFlags) (hbl : w.blockList = some bl) :
    ∃ w2, w.activateBlock (n + 1) (some a) c = some w2 ∧
      (w2.heap a).selectedInBlockList = (w.heap a).selectedInBlockList ∧
      (∀ x, { w2.heap x with selectedInBlockList := (w.heap x).selectedInBlockList } =
        w.heap x) ∧
      (some a ∈ w.blockModel.listBlock →
        (w.blockModel.getIndex (some a)).isValid = true ∧
        w.blockModel.getBlock (w.blockModel.getIndex (some a)).row = some (some a) ∧
        w2.blockView.selectionModel.isSelected (w.blockModel.getIndex (some a)) =
          (w.heap a).selectedInBlockList) := by
  obtain ⟨h2, s2, hres, hflag, hframe, -, hsel⟩ := activateBlock_total n w a bl c hbl
  refine ⟨_, hres, hflag, hframe, ?_⟩
  intro hmem
  obtain ⟨hv, -, hrow⟩ := getIndex_of_mem w.blockModel (some a) hmem
  refine ⟨hv, hrow, ?_⟩
  have := hsel hv
  show decide (w.blockModel.getIndex (some a) ∈ s2.selection) = _
  by_cases hs : (w.heap a).selectedInBlockList = true
  · rw [hs]; exact decide_eq_true (this.mpr hs)
  · have hs2 : (w.heap a).selectedInBlockList = false := by simpa using hs
    rw [hs2]; exact decide_eq_false (fun h => hs (this.mp h))

/-! ## Filtering the block list -/

theorem restoreSelectionsStep_total (n : Nat) (w : QG_BlockWidget) (p : RS_BlockPtr) :
    ∃ (h2 : Heap) (s2 : QItemSelectionModel),
      restoreSelectionsStep (n + 1) w p = some (w.withSel h2 s2) ∧
      ∀ x, { h2 x with selectedInBlockList := (w.heap x).selectedInBlockList } = w.heap x := by
  unfold restoreSelectionsStep
  cases p with
  | none => exact ⟨w.heap, w.blockView.selectionModel, rfl, fun _ => rfl⟩
  | some a =>
    dsimp only
    by_cases hv : (w.heap a).visibleInBlockList = true
    · by_cases hs : (w.heap a).selectedInBlockList = true
      · simp only [hv, hs, Bool.not_true, Bool.false_eq_true, if_false]
        obtain ⟨S, s2, h2, -, -, -⟩ := select_Select_total n w (w.blockModel.getIndex (some a))
        exact ⟨_, s2, h2, fun x => foldl_selHeap_frame _ _ _ x⟩
      · refine ⟨w.heap, w.blockView.selectionModel, ?_, fun _ => rfl⟩
        simp [hv, hs]; rfl
    · refine ⟨w.heap, w.blockView.selectionModel, ?_, fun _ => rfl⟩
      simp [hv]; rfl

theorem restoreSelectionsLoop_total (n : Nat) (l : List RS_BlockPtr) (w : QG_BlockWidget) :
    ∃ (h2 : Heap) (s2 : QItemSelectionModel),
      l.foldlM (restoreSelectionsStep (n + 1)) w = some (w.withSel h2 s2) ∧
      ∀ x, { h2 x with selectedInBlockList := (w.heap x).selectedInBlockList } = w.heap x := by
  induction l generalizing w with
  | nil => exact ⟨w.heap, w.blockView.selectionModel, rfl, fun _ => rfl⟩
  | cons p ps ih =>
    obtain ⟨h1, s1, hr1, hf1⟩ := restoreSelectionsStep_total n w p
    obtain ⟨h2, s2, hr2, hf2⟩ := ih (w.withSel h1 s1)
    refine ⟨h2, s2, ?_, fun x => frame_trans _ _ _ (hf1 x) (hf2 x)⟩
    rw [List.foldlM_cons, hr1]
    exact hr2

theorem slotUpdateBlockListStep_eq (rx : QString → QString → Int) (w : QG_BlockWidget)
    (i : Nat) :
    slotUpdateBlockListStep rx w i =
      some (match w.blockModel.blockAt i with
        | none => w
        | some a => w.showOrHide i a (decide (rx w.matchBlockName (w.heap a).name = 0))) := by
  unfold slotUpdateBlockListStep
  rw [getBlock_blockAt]
  cases hb : w.blockModel.blockAt i with
  | none => rfl
  | some a =>
    obtain ⟨h0, hlt, -⟩ := blockAt_some _ _ _ hb
    have hrange : ¬ ((i : Int) < 0 ∨ (i : Int) ≥ w.blockModel.rowCount) := by
      simp only [QG_BlockModel.rowCount]; omega
    have hset : ∀ v, w.setRowHidden i v =
        { w with blockView := { w.blockView with rowHidden := fun r =>
            if r = (i : Int) then v else w.blockView.rowHidden r } } := by
      intro v
      simp only [QG_BlockWidget.setRowHidden, hrange, if_false]
    simp only [Option.bind_eq_bind, Option.some_bind, hset, getBlock_blockAt, hb, Option.pure_def]
    by_cases hm : rx w.matchBlockName (w.heap a).name = 0
    · simp [hm, QG_BlockWidget.showOrHide]
    · simp [hm, QG_BlockWidget.showOrHide]

theorem setVisible_frame (h : Heap) (a : Nat) (v : Bool) (x : Nat) :
    { setVisibleInBlockList h a v x with visibleInBlockList := (h x).visibleInBlockList } =
      h x := by
  unfold setVisibleInBlockList
  by_cases hx : x = a <;> simp [hx]

theorem visible_frame_trans (b c d : RS_Block)
    (h1 : { c with visibleInBlockList := b.visibleInBlockList } = b)
    (h2 : { d with visibleInBlockList := c.visibleInBlockList } = c) :
    { d with visibleInBlockList := b.visibleInBlockList } = b := by
  cases b; cases c; cases d
  simp only [RS_Block.mk.injEq] at *
  simp [h1.1, h1.2.1, h1.2.2.1, h1.2.2.2.2, h2.1, h2.2.1, h2.2.2.1, h2.2.2.2.2]

/-- The loop of `slotUpdateBlockList` over the first `n` rows: every block at one of these
rows is visible in the block list exactly when its name matches, its row is hidden
exactly when it does not, and nothing else than the visible flags and the hidden rows
has changed. -/
theorem slotUpdateBlockList_loop (rx : QString → QString → Int) (w : QG_BlockWidget) (n : Nat) :
    ∃ w2, (List.range n).foldlM (slotUpdateBlockListStep rx) w = some w2 ∧
      w2.blockList = w.blockList ∧ w2.lastBlock = w.lastBlock ∧
      w2.blockModel = w.blockModel ∧ w2.matchBlockName = w.matchBlockName ∧
      w2.blockView.selectionModel = w.blockView.selectionModel ∧
      (∀ x, { w2.heap x with visibleInBlockList := (w.heap x).visibleInBlockList } = w.heap x) ∧
      (∀ i, i < n → ∀ a, w.blockModel.blockAt (i : Int) = some a →
        (w2.heap a).visibleInBlockList = decide (rx w.matchBlockName (w.heap a).name = 0) ∧
        w2.blockView.rowHidden (i : Int) =
          !decide (rx w.matchBlockName (w.heap a).name = 0)) := by
  induction n with
  | zero =>
    exact ⟨w, rfl, rfl, rfl, rfl, rfl, rfl, fun _ => rfl, fun i hi => absurd hi (by omega)⟩
  | succ n ih =>
    obtain ⟨w2, hr, hbl, hlb, hbm, hmn, hsm, hfr, hinv⟩ := ih
    rw [List.range_succ, List.foldlM_append, hr]
    simp only [Option.bind_eq_bind, Option.some_bind, List.foldlM_cons, List.foldlM_nil,
      slotUpdateBlockListStep_eq, Option.pure_def]
    refine ⟨_, rfl, ?_⟩
    cases hb : w2.blockModel.blockAt (n : Int) with
    | none =>
      refine ⟨hbl, hlb, hbm, hmn, hsm, hfr, ?_⟩
      intro i hi a hia
      rcases Nat.lt_succ_iff_lt_or_eq.mp hi with hlt | heq
      · exact hinv i hlt a hia
      · rw [heq, ← hbm, hb] at hia; cases hia
    | some b =>
      have hname : (w2.heap b).name = (w.heap b).name := by
        have := congrArg RS_Block.name (hfr b); exact this
      refine ⟨hbl, hlb, hbm, hmn, hsm, ?_, ?_⟩
      · intro x
        exact visible_frame_trans _ _ _ (hfr x) (setVisible_frame _ _ _ x)
      · intro i hi a hia
        simp only [QG_BlockWidget.showOrHide]
        rw [hmn, hname]
        rcases Nat.lt_succ_iff_lt_or_eq.mp hi with hlt | heq
        · obtain ⟨hv, hh⟩ := hinv i hlt a hia
          have hne : ¬ ((i : Int) = (n : Int)) := by omega
          simp only [hne, if_false]
          refine ⟨?_, hh⟩
          unfold setVisibleInBlockList
          by_cases hab : a = b
          · simp [hab]
          · simp [hab, hv]
        · subst heq
          rw [← hbm, hb] at hia
          have hab : b = a := Option.some.inj hia
          subst hab
          simp [setVisibleInBlockList]

/-- C2: when the block list is non-null and the model was populated from it by
`setBlockList`, `slotUpdateBlockList()` returns (with a budget of one nested signal) and
then, for every row of the model, the block of the row is visible in the block list
exactly when the wildcard pattern of the filter text matches its name at position 0, and
the row is shown in that case and hidden otherwise; the model, the block list and the
names are as before.  When the block list is null the call returns the state it was
given. -/
theorem slotUpdateBlockList_filters (rx : QString → QString → Int) (n : Nat)
    (w : QG_BlockWidget) :
    (∀ (bl : RS_BlockList) (m0 : QG_BlockModel), w.blockList = some bl → m0.setBlockList w.heap (some bl) = some w.blockModel →
      ∃ w2, w.slotUpdateBlockList rx (n + 1) = some w2 ∧
        w2.blockModel = w.blockModel ∧ w2.blockList = w.blockList ∧
        w2.matchBlockName = w.matchBlockName ∧
        (∀ x, (w2.heap x).name = (w.heap x).name) ∧
        ∀ i : Int, 0 ≤ i → i < w2.blockModel.rowCount →
          ∃ a, w2.blockModel.getBlock i = some (some a) ∧
            ((w2.heap a).visibleInBlockList = true ↔
              rx w2.matchBlockName (w2.heap a).name = 0) ∧
            (w2.blockView.rowHidden i = false ↔
              rx w2.matchBlockName (w2.heap a).name = 0)) ∧
    (w.blockList = none → w.slotUpdateBlockList rx n = some w) := by
  constructor
  · intro bl m0 hbl hpop
    obtain ⟨hnn, hlen⟩ := setBlockList_populated m0 w.blockModel w.heap bl hpop
    obtain ⟨w1, hr, hbl1, -, hbm, hmn, -, hfr, hinv⟩ :=
      slotUpdateBlockList_loop rx w bl.blocks.length
    obtain ⟨h2, s2, hr2, hfr2⟩ := restoreSelectionsLoop_total n bl.blocks w1
    have hres : w.slotUpdateBlockList rx (n + 1) = some (w1.withSel h2 s2) := by
      unfold QG_BlockWidget.slotUpdateBlockList
      simp only [hbl, RS_BlockList.count, Int.toNat_ofNat, Option.bind_eq_bind, hr,
        Option.some_bind]
      unfold QG_BlockWidget.restoreSelections
      rw [hbl1, hbl]
      exact hr2
    have hname : ∀ x, (h2 x).name = (w.heap x).name := by
      intro x
      have e1 := congrArg RS_Block.name (hfr2 x)
      have e2 := congrArg RS_Block.name (hfr x)
      exact e1.trans e2
    refine ⟨_, hres, hbm, hbl1, hmn, hname, ?_⟩
    intro i hi0 hirow
    have hirow2 : i < w.blockModel.rowCount := by rw [← hbm]; exact hirow
    have hlt : i.toNat < w.blockModel.listBlock.length := by
      simp only [QG_BlockModel.rowCount] at hirow2; omega
    obtain ⟨a, ha⟩ := Option.ne_none_iff_exists'.mp (hnn _ (List.getElem_mem hlt))
    have hcast : ((i.toNat : Nat) : Int) = i := by omega
    have hat : w.blockModel.blockAt i = some a := by
      unfold QG_BlockModel.blockAt
      have : ¬ (i < 0 ∨ i ≥ w.blockModel.rowCount) := by omega
      simp only [this, if_false]
      rw [List.getD_eq_getElem _ _ hlt, ha]
    obtain ⟨hv, hh⟩ := hinv i.toNat (by omega) a (by rw [hcast]; exact hat)
    rw [hcast] at hh
    refine ⟨a, ?_, ?_, ?_⟩
    · show w1.blockModel.getBlock i = _
      rw [hbm, getBlock_blockAt, hat]
    · show (h2 a).visibleInBlockList = true ↔ rx w1.matchBlockName (h2 a).name = 0
      have e1 : (h2 a).visibleInBlockList = (w1.heap a).visibleInBlockList := by
        have := congrArg RS_Block.visibleInBlockList (hfr2 a); exact this
      rw [e1, hv, hmn, hname a]
      exact decide_eq_true_iff
    · show w1.blockView.rowHidden i = false ↔ rx w1.matchBlockName (h2 a).name = 0
      rw [hh, hmn, hname a]
      simp
  · intro hbl
    simp [QG_BlockWidget.slotUpdateBlockList, hbl]

/-! ## Instances on the example panel -/

/-- C1 on the example: the list has no null entry, and the model gets the two blocks that
are not undone. -/
theorem setBlockList_rows_sorted_filter_witness :
    (∀ p ∈ exampleBlockList.blocks, p ≠ none) ∧
      ∃ m2, QG_BlockModel.new.setBlockList exampleHeap (some exampleBlockList) = some m2 ∧
        m2.rowCount = 2 ∧ some 3 ∉ m2.listBlock := by
  refine ⟨by decide, ?_⟩
  obtain ⟨m2, h, -, -, hund, hcount, -⟩ :=
    setBlockList_rows_sorted_filter QG_BlockModel.new exampleHeap exampleBlockList (by decide)
  refine ⟨m2, h, ?_, hund 3 (by decide)⟩
  rw [hcount]
  decide

/-- C2 on the example: the model is the one `setBlockList` builds, and after filtering
with the text "A" the block "A" is visible in the block list and its row 0 is shown. -/
theorem slotUpdateBlockList_filters_witness :
    exampleWidget.blockList = some exampleBlockList ∧
      QG_BlockModel.new.setBlockList exampleWidget.heap (some exampleBlockList) =
        some exampleWidget.blockModel ∧
      ∃ w2, exampleWidget.slotUpdateBlockList exampleIndexOfRx 1 = some w2 ∧
        (w2.heap 2).visibleInBlockList = true ∧ w2.blockView.rowHidden 0 = false := by
  refine ⟨rfl, by decide, ?_⟩
  obtain ⟨w2, hres, hbm, -, hmn, hname, hrows⟩ :=
    (slotUpdateBlockList_filters exampleIndexOfRx 0 exampleWidget).1 exampleBlockList
      QG_BlockModel.new rfl (by decide)
  obtain ⟨a, ha, hv, hh⟩ := hrows 0 (by decide) (by rw [hbm]; decide)
  rw [hbm] at ha
  have ha2 : a = 2 := by
    have h0 : exampleWidget.blockModel.getBlock 0 = some (some 2) := by decide
    rw [h0] at ha
    exact (Option.some.inj (Option.some.inj ha)).symm
  subst ha2
  have hm : exampleIndexOfRx w2.matchBlockName (w2.heap 2).name = 0 := by
    rw [hmn, hname 2]; decide
  exact ⟨w2, hres, hv.mpr hm, hh.mpr hm⟩

/-- C3 on the example: selecting row 0 and deselecting row 1 leaves block 2 selected and
the visible block 1 deselected. -/
theorem slotSelectionChanged_mirrors_witness :
    ∃ w2, exampleWidget.slotSelectionChanged 2 [createIndex 0 1] [createIndex 1 1] = some w2 ∧
      (w2.heap 2).selectedInBlockList = true ∧ (w2.heap 1).selectedInBlockList = false := by
  obtain ⟨w2, hres, -, -, -, -, -, -, -, hsel, -, hdesel, -⟩ :=
    slotSelectionChanged_mirrors 0 exampleWidget [createIndex 0 1] [createIndex 1 1]
  exact ⟨w2, hres, hsel 2 (by decide) (by decide), hdesel 1 (by decide) (by decide)⟩

/-- C4 on the example: activating block 2 makes it the active block of the list and of
the model, and `lastBlock` is block 1, active before. -/
theorem activateBlock_activates_witness :
    exampleWidget.blockList = some exampleBlockList ∧
      ∃ w2 bl2, exampleWidget.activateBlock 1 (some 2) SelectionFlags.ClearAndSelect = some w2 ∧
        w2.blockList = some bl2 ∧ bl2.getActive = some 2 ∧
        w2.blockModel.activeBlock = some 2 ∧ w2.lastBlock = some 1 := by
  refine ⟨rfl, ?_⟩
  obtain ⟨w2, bl2, hres, hbl, hact, -, hmod, -, hlast⟩ :=
    (activateBlock_activates 0 exampleWidget SelectionFlags.ClearAndSelect).1 2
      exampleBlockList rfl
  exact ⟨w2, bl2, hres, hbl, hact, hmod, hlast⟩

/-- C5 on the example: activating the selected block 2 leaves it selected, and the index
of its row is selected in the view. -/
theorem activateBlock_restores_selected_witness :
    exampleWidget.blockList = some exampleBlockList ∧
      ∃ w2, exampleWidget.activateBlock 1 (some 2) SelectionFlags.ClearAndSelect = some w2 ∧
        (w2.heap 2).selectedInBlockList = true ∧
        w2.blockView.selectionModel.isSelected (exampleWidget.blockModel.getIndex (some 2)) =
          true := by
  refine ⟨rfl, ?_⟩
  obtain ⟨w2, hres, hflag, -, hview⟩ :=
    activateBlock_restores_selected 0 exampleWidget 2 exampleBlockList
      SelectionFlags.ClearAndSelect rfl
  exact ⟨w2, hres, hflag, (hview (by decide)).2.2⟩

/-- C6 on the example: the model has no null row, `getBlock(5)` is `nullptr` and
`index(5, 0)` is invalid. -/
theorem getBlock_index_in_range_witness :
    (∀ p ∈ exampleModel.listBlock, p ≠ none) ∧
      exampleModel.getBlock 5 = some none ∧ (exampleModel.index 5 0).isValid = false := by
  refine ⟨by decide, ?_⟩
  obtain ⟨-, hnull, -, hidx⟩ := getBlock_index_in_range exampleModel 5 0 (by decide)
  exact ⟨hnull.mpr (by decide), hidx.mpr (by decide)⟩

/-- C8 on the example: the index of row 1, column NAME is valid and in range, and its
font is bold, block 1 being the active block. -/
theorem data_table_witness :
    ((createIndex 1 NAME).isValid = true ∧ (createIndex 1 NAME).row < exampleModel.rowCount) ∧
      exampleModel.data exampleHeap (createIndex 1 NAME) FontRole =
        some (QVariant.font ⟨true⟩) := by
  refine ⟨by decide, ?_⟩
  obtain ⟨blk, hat, -, -, hfont, -⟩ :=
    (data_table exampleModel exampleHeap (createIndex 1 NAME) FontRole).2 (by decide)
  have hblk : blk = some 1 := by
    have h0 : qlistAt exampleModel.listBlock (createIndex 1 NAME).row = some (some 1) := by decide
    rw [h0] at hat
    exact (Option.some.inj hat).symm
  subst hblk
  rw [hfont ⟨rfl, rfl⟩]
  decide
